import Mathlib

/-!
Verification of the simulation core of `idle_snake` (`src/main.rs`).

The Rust program is a bevy ECS application.  We embed its simulation state
shallowly: entities are natural numbers, each ECS component is an
association list (or plain list for marker components), and every system of
the fixed-timestep `Playing` stage is a pure function on a `World` record.
The stage runs its systems in registration order:
`food_spawner`, `segment_movement`, `snake_movement`, `collision_solver`,
`eat_events_solver`, `bump_events_solver`.

Two external effects are parameters of the model: the food-spawn timer
(driven by real-time deltas) is a boolean oracle `fires`, and the random
choice of a free cell (`IteratorRandom::choose`) is an oracle
`pick : List Position → Option Position`, constrained (where a theorem
needs it) to return a member of its argument.
-/

set_option maxHeartbeats 1000000
set_option maxRecDepth 100000

namespace IdleSnake

/-- Grid cell, integer coordinates exactly as the Rust `Position`. -/
structure Position where
  x : Int
  y : Int
deriving DecidableEq

/-- The four movement directions. -/
inductive Direction where
  | left
  | up
  | right
  | down
deriving DecidableEq

/-- `Direction::opposite`. -/
def Direction.opposite : Direction → Direction
  | .left => .right
  | .right => .left
  | .up => .down
  | .down => .up

/-- The `SnakeSegment` component: links to the neighbouring segments. -/
structure SnakeSegment where
  front : Option Nat
  back : Option Nat
deriving DecidableEq

/-- The `Player` resource. -/
structure Player where
  snake : Nat
  direction : Direction
  food : Nat
deriving DecidableEq

/-- The `GameState` state machine. -/
inductive GameState where
  | Playing
  | Paused
  | Lost
deriving DecidableEq

/-- `EatEvent { eater, eaten }`. -/
structure EatEvent where
  eater : Nat
  eaten : Nat
deriving DecidableEq

/-- `BumpEvent { head, wall }`. -/
structure BumpEvent where
  head : Nat
  wall : Nat
deriving DecidableEq

/-- `ARENA_WIDTH` (the source uses `u32` 15, compared as `i32`). -/
def ARENA_WIDTH : Int := 15

/-- `ARENA_HEIGHT`. -/
def ARENA_HEIGHT : Int := 15

/-- Component lookup on an entity, i.e. what a bevy query `get` returns. -/
def lookupC {α : Type} : List (Nat × α) → Nat → Option α
  | [], _ => none
  | (k, v) :: rest, e => if k = e then some v else lookupC rest e

/-- Overwriting a component value on an entity (`q.set`). -/
def setC {α : Type} (ps : List (Nat × α)) (e : Nat) (v : α) : List (Nat × α) :=
  ps.map (fun pr => if pr.1 = e then (e, v) else pr)

/-- The whole ECS world plus the resources the simulation reads and writes. -/
structure World where
  nextE : Nat
  positions : List (Nat × Position)
  segments : List (Nat × SnakeSegment)
  snakes : List Nat
  heads : List Nat
  foods : List Nat
  player : Player
  lastInput : Direction
  gamestate : GameState
deriving DecidableEq

/-- `spawn_head`: a fresh entity with `Position`, `Snake`, `SnakeHead`. -/
def spawn_head (w : World) (pos : Position) : World × Nat :=
  let e := w.nextE
  ({ w with
      nextE := e + 1,
      positions := w.positions ++ [(e, pos)],
      snakes := w.snakes ++ [e],
      heads := w.heads ++ [e] }, e)

/-- `spawn_segment`: a fresh entity with `Position`, `Snake`. -/
def spawn_segment (w : World) (pos : Position) : World × Nat :=
  let e := w.nextE
  ({ w with
      nextE := e + 1,
      positions := w.positions ++ [(e, pos)],
      snakes := w.snakes ++ [e] }, e)

/-- `spawn_food`: a fresh entity with `Food` and `Position`. -/
def spawn_food (w : World) (pos : Position) : World :=
  let e := w.nextE
  { w with
      nextE := e + 1,
      positions := w.positions ++ [(e, pos)],
      foods := w.foods ++ [e] }

/-- The `segments.windows(3)` loop of `spawn_snake`: the middle entity of
each window of three receives a `SnakeSegment` linking to its neighbours. -/
def linkWindows : List (Option Nat) → List (Nat × SnakeSegment)
  | a :: b :: c :: rest =>
    (match b with
     | some m => [(m, ⟨a, c⟩)]
     | none => []) ++ linkWindows (b :: c :: rest)
  | _ => []

/-- `spawn_snake`: head at `position`, three body segments at increasing x,
then the windowed linking pass. -/
def spawn_snake (w : World) (pos : Position) : World × Nat :=
  let r0 := spawn_head w pos
  let r1 := spawn_segment r0.1 { pos with x := pos.x + 1 }
  let r2 := spawn_segment r1.1 { pos with x := pos.x + 2 }
  let r3 := spawn_segment r2.1 { pos with x := pos.x + 3 }
  let ents : List (Option Nat) := [none, some r0.2, some r1.2, some r2.2, some r3.2, none]
  ({ r3.1 with segments := r3.1.segments ++ linkWindows ents }, r0.2)

/-- `game_setup`: spawn the snake at the origin, install the `Player`
resource with direction `Up` and zero food. -/
def game_setup (w : World) : World :=
  let r := spawn_snake w ⟨0, 0⟩
  { r.1 with player := ⟨r.2, Direction.up, 0⟩ }

/-- The empty ECS world before the startup systems, with the `LastInput`
resource `Up` and initial state `Playing` as installed in `main`. -/
def emptyWorld : World :=
  { nextE := 0, positions := [], segments := [], snakes := [], heads := [],
    foods := [], player := ⟨0, Direction.up, 0⟩, lastInput := Direction.up,
    gamestate := GameState.Playing }

/-- The world after the startup stages of `main`. -/
def initWorld : World := game_setup emptyWorld

/-- One movement step of the head (`snake_movement`, after the direction
was resolved): offset by the direction, then wrap each axis. -/
def step (p : Position) (d : Direction) : Position :=
  let p1 : Position :=
    match d with
    | .left => { p with x := p.x - 1 }
    | .right => { p with x := p.x + 1 }
    | .down => { p with y := p.y - 1 }
    | .up => { p with y := p.y + 1 }
  let x2 := if p1.x < 0 then ARENA_WIDTH - 1 else if p1.x ≥ ARENA_WIDTH then 0 else p1.x
  let y2 := if p1.y < 0 then ARENA_HEIGHT - 1 else if p1.y ≥ ARENA_HEIGHT then 0 else p1.y
  ⟨x2, y2⟩

/-- `snake_movement`: adopt the buffered direction unless it is the exact
opposite of the committed one, then move and wrap the player's head. -/
def snake_movement (w : World) : World :=
  let dir := if w.lastInput ≠ w.player.direction.opposite then w.lastInput else w.player.direction
  let w1 : World := { w with player := { w.player with direction := dir } }
  if w1.player.snake ∈ w1.heads then
    match lookupC w1.positions w1.player.snake with
    | some p => { w1 with positions := setC w1.positions w1.player.snake (step p dir) }
    | none => w1
  else w1

/-- The body of the `while let` walk in `segment_movement`: starting behind
a head carrying the head's old position, each segment is assigned the
carried position and hands its own old position on to the segment behind
it.  The Rust loop is bounded by fuel; on the (invariant-impossible) cases
where a lookup fails the walk stops like the panicking `unwrap` would. -/
def shiftWalk (segs : List (Nat × SnakeSegment)) :
    Nat → Option Nat → Position → List (Nat × Position) → List (Nat × Position)
  | 0, _, _, ps => ps
  | _ + 1, none, _, ps => ps
  | fuel + 1, some e, p, ps =>
    match lookupC ps e, lookupC segs e with
    | some oldp, some seg => shiftWalk segs fuel seg.back oldp (setC ps e p)
    | _, _ => ps

/-- The `heads` collection of `segment_movement`: for every segment with
`front = None`, its `back` link and its current position. -/
def headStarts (w : World) : List (Option Nat × Position) :=
  w.segments.filterMap (fun pr =>
    if pr.2.front = none then (lookupC w.positions pr.1).map (fun p => (pr.2.back, p)) else none)

/-- `segment_movement`: shift every chain one step toward its head. -/
def segment_movement (w : World) : World :=
  let ps := (headStarts w).foldl
    (fun ps pr => shiftWalk w.segments w.segments.length pr.1 pr.2 ps) w.positions
  { w with positions := ps }

/-- Heads together with their positions (`heads_positions` query). -/
def headsWithPos (w : World) : List (Nat × Position) :=
  w.heads.filterMap (fun e => (lookupC w.positions e).map (fun p => (e, p)))

/-- Food entities together with their positions (`food_positions` query). -/
def foodsWithPos (w : World) : List (Nat × Position) :=
  w.foods.filterMap (fun e => (lookupC w.positions e).map (fun p => (e, p)))

/-- Snake entities that are not heads, with positions (`body_positions`). -/
def bodyWithPos (w : World) : List (Nat × Position) :=
  (w.snakes.filter (fun e => decide (¬ e ∈ w.heads))).filterMap
    (fun e => (lookupC w.positions e).map (fun p => (e, p)))

/-- `collision_solver`: an `EatEvent` per head/food position match and a
`BumpEvent` per head/body position match. -/
def collision_solver (w : World) : List EatEvent × List BumpEvent :=
  ((headsWithPos w).flatMap (fun h =>
      (foodsWithPos w).filterMap (fun f =>
        if h.2 = f.2 then some ⟨h.1, f.1⟩ else none)),
   (headsWithPos w).flatMap (fun h =>
      (bodyWithPos w).filterMap (fun b =>
        if h.2 = b.2 then some ⟨h.1, b.1⟩ else none)))

/-- `get_tail`: follow `back` links to the end (fuelled `while let`). -/
def get_tail (segs : List (Nat × SnakeSegment)) : Nat → Nat → Nat
  | 0, e => e
  | fuel + 1, e =>
    match lookupC segs e with
    | some seg =>
      match seg.back with
      | some t => get_tail segs fuel t
      | none => e
    | none => e

/-- Removing an entity and all its components (`commands.despawn`). -/
def despawn (w : World) (e : Nat) : World :=
  { w with
      positions := w.positions.filter (fun pr => decide (pr.1 ≠ e)),
      segments := w.segments.filter (fun pr => decide (pr.1 ≠ e)),
      snakes := w.snakes.filter (fun a => decide (a ≠ e)),
      heads := w.heads.filter (fun a => decide (a ≠ e)),
      foods := w.foods.filter (fun a => decide (a ≠ e)) }

/-- Processing of one `EatEvent` inside `eat_events_solver`: spawn a new
segment at the tail's current position, link it behind the old tail,
despawn the eaten food and increment the player's food counter when the
eater is the player's snake. -/
def eatStep (s : World) (ev : EatEvent) : World :=
  let t := get_tail s.segments s.segments.length ev.eater
  match lookupC s.segments t, lookupC s.positions t with
  | some tseg, some tpos =>
    let newT := s.nextE
    let s1 : World :=
      { s with
          nextE := s.nextE + 1,
          positions := s.positions ++ [(newT, tpos)],
          snakes := s.snakes ++ [newT],
          segments := setC s.segments t { tseg with back := some newT } ++
            [(newT, ⟨some t, none⟩)] }
    let s2 := despawn s1 ev.eaten
    if ev.eater = s2.player.snake then
      { s2 with player := { s2.player with food := s2.player.food + 1 } }
    else s2
  | _, _ => s

/-- `eat_events_solver`: consume the tick's eat events in order. -/
def eat_events_solver (events : List EatEvent) (w : World) : World :=
  events.foldl eatStep w

/-- `bump_events_solver`: the first bump event sets the state to `Lost`. -/
def bump_events_solver (bumps : List BumpEvent) (w : World) : World :=
  match bumps with
  | [] => w
  | _ :: _ => { w with gamestate := GameState.Lost }

/-- The 15×15 grid built by the nested loops of `food_spawner`. -/
def gridCells : List Position :=
  (List.range 15).flatMap (fun x => (List.range 15).map (fun y => ⟨(x : Int), (y : Int)⟩))

/-- Cells occupied by any entity that has a `Position` component. -/
def occupiedCells (w : World) : List Position :=
  w.positions.map Prod.snd

/-- The free cells `grid.difference(&occupied)` of `food_spawner`. -/
def freeCells (w : World) : List Position :=
  gridCells.filter (fun c => decide (¬ c ∈ occupiedCells w))

/-- `food_spawner`: when the timer fires, pick a free cell (RNG oracle
`pick`) and spawn a food there; skip silently when no pick is made. -/
def food_spawner (fires : Bool) (pick : List Position → Option Position)
    (w : World) : World :=
  if fires then
    match pick (freeCells w) with
    | some p => spawn_food w p
    | none => w
  else w

/-- One run of the fixed-timestep update stage of `GameState::Playing`,
systems in registration order. -/
def playing_tick (fires : Bool) (pick : List Position → Option Position)
    (w : World) : World :=
  let w1 := food_spawner fires pick w
  let w2 := segment_movement w1
  let w3 := snake_movement w2
  let ev := collision_solver w3
  let w4 := eat_events_solver ev.1 w3
  bump_events_solver ev.2 w4

/-- One logical tick: the stage only runs while the state is `Playing`. -/
def tick (fires : Bool) (pick : List Position → Option Position)
    (w : World) : World :=
  if w.gamestate = GameState.Playing then playing_tick fires pick w else w

/-- The eat events produced inside a tick (for stating hypotheses). -/
def tickEats (fires : Bool) (pick : List Position → Option Position)
    (w : World) : List EatEvent :=
  (collision_solver (snake_movement (segment_movement (food_spawner fires pick w)))).1

/-- The bump events produced inside a tick. -/
def tickBumps (fires : Bool) (pick : List Position → Option Position)
    (w : World) : List BumpEvent :=
  (collision_solver (snake_movement (segment_movement (food_spawner fires pick w)))).2

/-- One sample of the keyboard, as `input_events_sender` reads it. -/
structure Keys where
  space : Bool
  left : Bool
  right : Bool
  down : Bool
  up : Bool
deriving DecidableEq

/-- `input_events_sender`: space toggles `Playing ↔ Paused`; the most
recent directional key (in the source's priority order) overwrites the
`LastInput` buffer. -/
def input_events_sender (keys : Keys) (w : World) : World :=
  let w1 : World :=
    if keys.space then
      if w.gamestate = GameState.Paused then { w with gamestate := GameState.Playing }
      else if w.gamestate = GameState.Playing then { w with gamestate := GameState.Paused }
      else w
    else w
  if keys.left then { w1 with lastInput := Direction.left }
  else if keys.right then { w1 with lastInput := Direction.right }
  else if keys.down then { w1 with lastInput := Direction.down }
  else if keys.up then { w1 with lastInput := Direction.up }
  else w1

/-- A random-choice oracle is sound when it returns a member of its input. -/
def PickOk (pick : List Position → Option Position) : Prop :=
  ∀ l p, pick l = some p → p ∈ l

/-- States reachable by the program: the startup state, ticks of the
fixed-timestep stage under any timer/RNG environment, and runs of the
input system. -/
inductive Reachable : World → Prop
  | init : Reachable initWorld
  | tick (w : World) (fires : Bool) (pick : List Position → Option Position) :
      PickOk pick → Reachable w → Reachable (tick fires pick w)
  | input (w : World) (keys : Keys) :
      Reachable w → Reachable (input_events_sender keys w)

/-- Arena bounds for a cell after wrap normalization. -/
def inBounds (p : Position) : Prop :=
  0 ≤ p.x ∧ p.x < ARENA_WIDTH ∧ 0 ≤ p.y ∧ p.y < ARENA_HEIGHT

instance decidableInBounds (p : Position) : Decidable (inBounds p) :=
  inferInstanceAs (Decidable (0 ≤ p.x ∧ p.x < ARENA_WIDTH ∧ 0 ≤ p.y ∧ p.y < ARENA_HEIGHT))

/-- The `SnakeSegment` table a well-formed chain `es` (head first) induces:
entry `i` links to `es[i-1]` in front (`f` in front of the first) and
`es[i+1]` behind. -/
def chainLinks : Option Nat → List Nat → List (Nat × SnakeSegment)
  | _, [] => []
  | f, e :: rest => (e, ⟨f, rest.head?⟩) :: chainLinks (some e) rest

/-- The front link of the chain entry at index `i`. -/
def prevO (f : Option Nat) (es : List Nat) : Nat → Option Nat
  | 0 => f
  | k + 1 => es[k]?

/-- The `back` links of `segs` thread the list `es` in order and end at
`none`. -/
def ChainLinked (segs : List (Nat × SnakeSegment)) : List Nat → Prop
  | [] => True
  | e :: rest =>
    (∃ s, lookupC segs e = some s ∧ s.back = rest.head?) ∧ ChainLinked segs rest

/-- The head-to-tail snapshot of a chain obtained by walking `back` links
from an entity (fuelled like `get_tail`). -/
def chainWalk (segs : List (Nat × SnakeSegment)) : Nat → Option Nat → List Nat
  | _, none => []
  | 0, some _ => []
  | fuel + 1, some e => e :: chainWalk segs fuel ((lookupC segs e).bind SnakeSegment.back)

/-- The state invariant the simulation maintains, relative to the chain
order `es` (head first): the segment table is exactly the chain table of
`es`, the player's head is the single `SnakeHead` and the chain head,
`Snake` markers are exactly the chain entities, foods are disjoint from the
chain and pairwise on distinct cells, every chain entity and food has a
position, all positions are in bounds, keys are duplicate-free, and every
live entity is below the allocation counter. -/
structure InvE (w : World) (es : List Nat) : Prop where
  esNe : es ≠ []
  esNd : es.Nodup
  segsEq : w.segments = chainLinks none es
  headsEq : w.heads = [w.player.snake]
  headFst : es.head? = some w.player.snake
  snakesSub : ∀ e ∈ w.snakes, e ∈ es
  snakesSup : ∀ e ∈ es, e ∈ w.snakes
  snakesNd : w.snakes.Nodup
  foodsNd : w.foods.Nodup
  foodsDisj : ∀ e ∈ w.foods, ¬ e ∈ es
  posKeysNd : (w.positions.map Prod.fst).Nodup
  segsPos : ∀ e ∈ es, (lookupC w.positions e).isSome = true
  foodsPos : ∀ e ∈ w.foods, (lookupC w.positions e).isSome = true
  posBounds : ∀ pr ∈ w.positions, inBounds pr.2
  foodsCells : w.foods.Pairwise (fun a b => lookupC w.positions a ≠ lookupC w.positions b)
  freshEs : ∀ e ∈ es, e < w.nextE
  freshFoods : ∀ e ∈ w.foods, e < w.nextE
  freshPos : ∀ e ∈ w.positions.map Prod.fst, e < w.nextE

/-- Success of one eat-event resolution: the walked tail has a segment and
a position, the eaten entity is not a segment, and neither the eaten entity
nor a stale component blocks the freshly allocated entity (all guaranteed
by the state invariant in reachable worlds). -/
def eatOk (s : World) (ev : EatEvent) : Bool :=
  let t := get_tail s.segments s.segments.length ev.eater
  (lookupC s.segments t).isSome && (lookupC s.positions t).isSome &&
    (lookupC s.segments ev.eaten).isNone && decide (ev.eaten ≠ s.nextE) &&
    (lookupC s.segments s.nextE).isNone && (lookupC s.positions s.nextE).isNone

/-- Every eat event of the list resolves successfully in sequence. -/
def allOk (s : World) : List EatEvent → Bool
  | [] => true
  | ev :: evs => eatOk s ev && allOk (eatStep s ev) evs

/-- The cells of all live snake segments. -/
def segmentCells (w : World) : List Position :=
  w.segments.filterMap (fun pr => lookupC w.positions pr.1)

/-- The free set as the specification words it, for comparison with the
implemented `freeCells`: all grid cells minus the cells currently occupied
by any live snake segment (food cells not subtracted). -/
def freeCells_spec (w : World) : List Position :=
  gridCells.filter (fun c => decide (¬ c ∈ segmentCells w))

/-- A concrete sound choice oracle: the last free cell. -/
def pickLast : List Position → Option Position := fun l => l.getLast?

/-- The trivial oracle used when the timer does not fire. -/
def pickNone : List Position → Option Position := fun _ => none

/-- A four-segment chain `[H,S1,S2,S3]` at `(5,5),(4,5),(3,5),(2,5)`
committed and buffered right. -/
def cw1 : World :=
  { nextE := 4,
    positions := [(0, ⟨5, 5⟩), (1, ⟨4, 5⟩), (2, ⟨3, 5⟩), (3, ⟨2, 5⟩)],
    segments := [(0, ⟨none, some 1⟩), (1, ⟨some 0, some 2⟩),
      (2, ⟨some 1, some 3⟩), (3, ⟨some 2, none⟩)],
    snakes := [0, 1, 2, 3], heads := [0], foods := [],
    player := ⟨0, Direction.right, 0⟩, lastInput := Direction.right,
    gamestate := GameState.Playing }

/-- A five-segment chain folded so that moving right drives the head onto
the cell the last segment shifts into: a self-bump state. -/
def cwB : World :=
  { nextE := 5,
    positions := [(0, ⟨5, 5⟩), (1, ⟨5, 6⟩), (2, ⟨6, 6⟩), (3, ⟨6, 5⟩), (4, ⟨7, 5⟩)],
    segments := [(0, ⟨none, some 1⟩), (1, ⟨some 0, some 2⟩),
      (2, ⟨some 1, some 3⟩), (3, ⟨some 2, some 4⟩), (4, ⟨some 3, none⟩)],
    snakes := [0, 1, 2, 3, 4], heads := [0], foods := [],
    player := ⟨0, Direction.right, 0⟩, lastInput := Direction.right,
    gamestate := GameState.Playing }

/-- A chain about to move its head right onto the food at `(2,2)`. -/
def cwEat : World :=
  { nextE := 5,
    positions := [(0, ⟨1, 2⟩), (1, ⟨0, 2⟩), (2, ⟨0, 1⟩), (3, ⟨0, 0⟩), (4, ⟨2, 2⟩)],
    segments := [(0, ⟨none, some 1⟩), (1, ⟨some 0, some 2⟩),
      (2, ⟨some 1, some 3⟩), (3, ⟨some 2, none⟩)],
    snakes := [0, 1, 2, 3], heads := [0], foods := [4],
    player := ⟨0, Direction.right, 0⟩, lastInput := Direction.right,
    gamestate := GameState.Playing }

/-- `cw1` with committed direction `Up` and a buffered `Down` reversal. -/
def cwRev : World :=
  { cw1 with player := ⟨0, Direction.up, 0⟩, lastInput := Direction.down }

/-- One tick from startup with the food timer firing. -/
def w1food : World := tick true pickLast initWorld

/-- A second firing tick: the program now holds two food entities. -/
def w2food : World := tick true pickLast w1food

/-! ### Association-list lemmas -/

theorem lookupC_isSome_iff {α : Type} (ps : List (Nat × α)) (e : Nat) :
    (lookupC ps e).isSome = true ↔ e ∈ ps.map Prod.fst := by
  induction ps with
  | nil => simp [lookupC]
  | cons pr rest ih =>
    obtain ⟨k, v⟩ := pr
    by_cases h : k = e
    · subst h
      simp [lookupC]
    · simp [lookupC, h, ih, Ne.symm h]

theorem lookupC_mem {α : Type} {ps : List (Nat × α)} {e : Nat} {v : α}
    (h : lookupC ps e = some v) : (e, v) ∈ ps := by
  induction ps with
  | nil => simp [lookupC] at h
  | cons pr rest ih =>
    obtain ⟨k, u⟩ := pr
    by_cases hk : k = e
    · subst hk
      simp [lookupC] at h
      simp [h]
    · simp [lookupC, hk] at h
      exact List.mem_cons_of_mem _ (ih h)

theorem lookupC_of_nodup_mem {α : Type} {ps : List (Nat × α)} {e : Nat} {v : α}
    (hnd : (ps.map Prod.fst).Nodup) (h : (e, v) ∈ ps) : lookupC ps e = some v := by
  induction ps with
  | nil => simp at h
  | cons pr rest ih =>
    obtain ⟨k, u⟩ := pr
    simp only [List.map_cons, List.nodup_cons] at hnd
    rcases List.mem_cons.mp h with h1 | h1
    · injection h1 with h1a h1b
      subst h1a
      subst h1b
      simp [lookupC]
    · have hke : k ≠ e := by
        intro hk
        subst hk
        exact hnd.1 (List.mem_map.mpr ⟨(k, v), h1, rfl⟩)
      simp [lookupC, hke, ih hnd.2 h1]

theorem setC_cons {α : Type} (k : Nat) (u : α) (rest : List (Nat × α))
    (e : Nat) (v : α) :
    setC ((k, u) :: rest) e v = (if k = e then (e, v) else (k, u)) :: setC rest e v := rfl

theorem lookupC_append {α : Type} (ps qs : List (Nat × α)) (e : Nat) :
    lookupC (ps ++ qs) e =
      (match lookupC ps e with
       | some v => some v
       | none => lookupC qs e) := by
  induction ps with
  | nil => simp [lookupC]
  | cons pr rest ih =>
    obtain ⟨k, u⟩ := pr
    by_cases hk : k = e
    · simp [lookupC, hk]
    · simp [lookupC, hk, ih]

theorem lookupC_append_left {α : Type} {ps : List (Nat × α)} {e : Nat} {v : α}
    (qs : List (Nat × α)) (h : lookupC ps e = some v) :
    lookupC (ps ++ qs) e = some v := by
  rw [lookupC_append, h]

theorem lookupC_append_right {α : Type} {ps : List (Nat × α)} {e : Nat}
    (qs : List (Nat × α)) (h : lookupC ps e = none) :
    lookupC (ps ++ qs) e = lookupC qs e := by
  rw [lookupC_append, h]

theorem lookupC_snoc_ne {α : Type} (ps : List (Nat × α)) {e k : Nat} (v : α)
    (h : e ≠ k) : lookupC (ps ++ [(k, v)]) e = lookupC ps e := by
  rw [lookupC_append]
  cases hl : lookupC ps e with
  | some u => rfl
  | none => simp [lookupC, Ne.symm h]

theorem lookupC_snoc_isSome {α : Type} (ps : List (Nat × α)) (k : Nat) (v : α)
    {e : Nat} (h : (lookupC ps e).isSome = true) :
    lookupC (ps ++ [(k, v)]) e = lookupC ps e := by
  rw [lookupC_append]
  cases hl : lookupC ps e with
  | some u => rfl
  | none => rw [hl] at h; simp at h

theorem lookupC_setC_self {α : Type} (ps : List (Nat × α)) (e : Nat) (v : α) :
    lookupC (setC ps e v) e = (lookupC ps e).map (fun _ => v) := by
  induction ps with
  | nil => simp [lookupC, setC]
  | cons pr rest ih =>
    obtain ⟨k, u⟩ := pr
    rw [setC_cons]
    by_cases hk : k = e
    · subst hk
      rw [if_pos rfl]
      simp [lookupC]
    · rw [if_neg hk]
      simp [lookupC, hk, ih]

theorem lookupC_setC_ne {α : Type} (ps : List (Nat × α)) {e e' : Nat} (v : α)
    (h : e' ≠ e) : lookupC (setC ps e v) e' = lookupC ps e' := by
  induction ps with
  | nil => simp [lookupC, setC]
  | cons pr rest ih =>
    obtain ⟨k, u⟩ := pr
    rw [setC_cons]
    by_cases hk : k = e
    · subst hk
      rw [if_pos rfl]
      simp [lookupC, Ne.symm h, ih]
    · rw [if_neg hk]
      by_cases hk' : k = e'
      · subst hk'
        simp [lookupC, ih]
      · simp [lookupC, hk', ih]

theorem setC_keys {α : Type} (ps : List (Nat × α)) (e : Nat) (v : α) :
    (setC ps e v).map Prod.fst = ps.map Prod.fst := by
  induction ps with
  | nil => rfl
  | cons pr rest ih =>
    obtain ⟨k, u⟩ := pr
    rw [setC_cons]
    by_cases hk : k = e
    · subst hk
      simpa using ih
    · rw [if_neg hk]
      simpa using ih

theorem setC_length {α : Type} (ps : List (Nat × α)) (e : Nat) (v : α) :
    (setC ps e v).length = ps.length := by
  simp [setC]

theorem mem_setC {α : Type} {ps : List (Nat × α)} {e : Nat} {v : α} {pr : Nat × α}
    (h : pr ∈ setC ps e v) : pr.2 = v ∨ pr ∈ ps := by
  induction ps with
  | nil => simp [setC] at h
  | cons q rest ih =>
    obtain ⟨k, u⟩ := q
    rw [setC_cons] at h
    rcases List.mem_cons.mp h with h1 | h1
    · by_cases hk : k = e
      · rw [if_pos hk] at h1
        left
        rw [h1]
      · rw [if_neg hk] at h1
        right
        rw [h1]
        exact List.mem_cons_self _ _
    · rcases ih h1 with h2 | h2
      · exact Or.inl h2
      · exact Or.inr (List.mem_cons_of_mem _ h2)

theorem lookupC_filter_ne {α : Type} (ps : List (Nat × α)) {e a : Nat}
    (h : e ≠ a) :
    lookupC (ps.filter (fun pr => decide (pr.1 ≠ a))) e = lookupC ps e := by
  induction ps with
  | nil => rfl
  | cons pr rest ih =>
    obtain ⟨k, u⟩ := pr
    by_cases hk : k = a
    · subst hk
      rw [List.filter_cons_of_neg (by simp), ih]
      have hek : ¬ k = e := fun he => h he.symm
      simp [lookupC, hek]
    · rw [List.filter_cons_of_pos (by simpa using hk)]
      by_cases hke : k = e
      · subst hke
        simp [lookupC]
      · simp [lookupC, hke]
        simpa using ih

/-! ### Chain-table lemmas -/

theorem chainLinks_keys (f : Option Nat) (l : List Nat) :
    (chainLinks f l).map Prod.fst = l := by
  induction l generalizing f with
  | nil => rfl
  | cons e rest ih => simp [chainLinks, ih]

theorem chainLinks_length (f : Option Nat) (l : List Nat) :
    (chainLinks f l).length = l.length := by
  have := congrArg List.length (chainLinks_keys f l)
  simpa using this

theorem chainLinks_getElem? (f : Option Nat) (l : List Nat) (i : Nat) :
    (chainLinks f l)[i]? =
      (l[i]?).map (fun e => (e, ⟨prevO f l i, l[i + 1]?⟩)) := by
  induction l generalizing f i with
  | nil => simp [chainLinks]
  | cons e rest ih =>
    cases i with
    | zero =>
      simp [chainLinks, prevO, List.head?_eq_getElem?]
    | succ j =>
      simp only [chainLinks, List.getElem?_cons_succ, ih (some e) j]
      cases hj : rest[j]? with
      | none => simp
      | some e' =>
        simp only [Option.map_some']
        cases j with
        | zero => simp [prevO]
        | succ k => simp [prevO]

theorem lookupC_chainLinks {l : List Nat} (hnd : l.Nodup) (f : Option Nat)
    {i : Nat} {e : Nat} (he : l[i]? = some e) :
    lookupC (chainLinks f l) e = some ⟨prevO f l i, l[i + 1]?⟩ := by
  apply lookupC_of_nodup_mem
  · rw [chainLinks_keys]
    exact hnd
  · have h1 := chainLinks_getElem? f l i
    rw [he] at h1
    exact List.mem_iff_getElem?.mpr ⟨i, h1⟩

theorem chainLinked_of_getElem (segs : List (Nat × SnakeSegment)) :
    ∀ (l : List Nat),
    (∀ (i : Nat) (e : Nat), l[i]? = some e →
        ∃ s, lookupC segs e = some s ∧ s.back = l[i + 1]?) →
    ChainLinked segs l := by
  intro l
  induction l with
  | nil => intro _; trivial
  | cons e rest ih =>
    intro h
    refine ⟨?_, ih ?_⟩
    · obtain ⟨s, hs, hb⟩ := h 0 e (by simp)
      refine ⟨s, hs, ?_⟩
      rw [hb, List.head?_eq_getElem?]
      simp
    · intro i e' he'
      have h1 := h (i + 1) e' (by simpa using he')
      simpa using h1

theorem chainLinked_chainLinks {l : List Nat} (hnd : l.Nodup) (f : Option Nat) :
    ChainLinked (chainLinks f l) l := by
  apply chainLinked_of_getElem
  intro i e he
  exact ⟨_, lookupC_chainLinks hnd f he, rfl⟩

theorem get_tail_chain (segs : List (Nat × SnakeSegment)) :
    ∀ (l : List Nat) (e : Nat) (fuel : Nat),
    ChainLinked segs (e :: l) → l.length ≤ fuel →
    get_tail segs fuel e = (e :: l).getLast (List.cons_ne_nil e l) := by
  intro l
  induction l with
  | nil =>
    intro e fuel hcl _
    obtain ⟨⟨s, hs, hb⟩, _⟩ := hcl
    simp only [List.head?_nil] at hb
    cases fuel with
    | zero => rfl
    | succ f =>
      simp only [get_tail, hs, hb]
      rfl
  | cons b rest ih =>
    intro e fuel hcl hlen
    obtain ⟨⟨s, hs, hb⟩, hcl'⟩ := hcl
    simp only [List.head?_cons] at hb
    cases fuel with
    | zero => simp at hlen
    | succ f =>
      have hlen' : rest.length ≤ f := by
        simp only [List.length_cons] at hlen
        omega
      simp only [get_tail, hs, hb]
      rw [ih b f hcl' hlen', List.getLast_cons (List.cons_ne_nil b rest)]

theorem chainWalk_chain (segs : List (Nat × SnakeSegment)) :
    ∀ (l : List Nat) (fuel : Nat),
    ChainLinked segs l → l.length ≤ fuel →
    chainWalk segs fuel l.head? = l := by
  intro l
  induction l with
  | nil =>
    intro fuel _ _
    cases fuel <;> rfl
  | cons e rest ih =>
    intro fuel hcl hlen
    obtain ⟨⟨s, hs, hb⟩, hcl'⟩ := hcl
    cases fuel with
    | zero => simp at hlen
    | succ f =>
      have hlen' : rest.length ≤ f := by
        simp only [List.length_cons] at hlen
        omega
      rw [List.head?_cons]
      simp only [chainWalk, hs]
      rw [show ((some s).bind SnakeSegment.back) = s.back from rfl, hb,
        ih f hcl' hlen']

/-! ### The chain-shift walk -/

theorem shiftWalk_keys (segs : List (Nat × SnakeSegment)) :
    ∀ (fuel : Nat) (eo : Option Nat) (p : Position) (ps : List (Nat × Position)),
    (shiftWalk segs fuel eo p ps).map Prod.fst = ps.map Prod.fst := by
  intro fuel
  induction fuel with
  | zero =>
    intro eo p ps
    rfl
  | succ f ih =>
    intro eo p ps
    cases eo with
    | none => rfl
    | some e =>
      cases h1 : lookupC ps e with
      | none =>
        cases h2 : lookupC segs e with
        | none => simp only [shiftWalk, h1, h2]
        | some seg => simp only [shiftWalk, h1, h2]
      | some oldp =>
        cases h2 : lookupC segs e with
        | none => simp only [shiftWalk, h1, h2]
        | some seg =>
          simp only [shiftWalk, h1, h2]
          rw [ih, setC_keys]

theorem shiftWalk_spec (segs : List (Nat × SnakeSegment)) :
    ∀ (l : List Nat) (fuel : Nat) (p : Position) (ps : List (Nat × Position)),
    ChainLinked segs l → l.Nodup →
    (∀ e ∈ l, (lookupC ps e).isSome = true) → l.length ≤ fuel →
    l.map (lookupC (shiftWalk segs fuel l.head? p ps)) =
        (some p :: l.map (lookupC ps)).dropLast ∧
    (∀ e, ¬ e ∈ l → lookupC (shiftWalk segs fuel l.head? p ps) e = lookupC ps e) := by
  intro l
  induction l with
  | nil =>
    intro fuel p ps _ _ _ _
    refine ⟨by simp, ?_⟩
    intro e _
    cases fuel <;> rfl
  | cons e0 rest ih =>
    intro fuel p ps hcl hnd hsome hlen
    obtain ⟨⟨s, hs, hb⟩, hcl'⟩ := hcl
    have h0 : (lookupC ps e0).isSome = true := hsome e0 (List.mem_cons_self e0 rest)
    obtain ⟨oldp, holdp⟩ := Option.isSome_iff_exists.mp h0
    cases fuel with
    | zero => simp at hlen
    | succ f =>
      have hlen' : rest.length ≤ f := by
        simp only [List.length_cons] at hlen
        omega
      have hstep : shiftWalk segs (f + 1) (some e0) p ps
          = shiftWalk segs f rest.head? oldp (setC ps e0 p) := by
        simp only [shiftWalk, holdp, hs, hb]
      have hnd2 := List.nodup_cons.mp hnd
      have hsome2 : ∀ e ∈ rest, (lookupC (setC ps e0 p) e).isSome = true := by
        intro e he
        have hne : e ≠ e0 := by
          intro h
          rw [h] at he
          exact hnd2.1 he
        rw [lookupC_setC_ne ps p hne]
        exact hsome e (List.mem_cons_of_mem e0 he)
      obtain ⟨ihm, iho⟩ := ih f oldp (setC ps e0 p) hcl' hnd2.2 hsome2 hlen'
      have hrw : rest.map (lookupC (setC ps e0 p)) = rest.map (lookupC ps) := by
        apply List.map_congr_left
        intro e he
        have hne : e ≠ e0 := by
          intro h
          rw [h] at he
          exact hnd2.1 he
        exact lookupC_setC_ne ps p hne
      constructor
      · rw [List.head?_cons, List.map_cons, hstep]
        have he0 : lookupC (shiftWalk segs f rest.head? oldp (setC ps e0 p)) e0
            = some p := by
          rw [iho e0 hnd2.1, lookupC_setC_self, holdp]
          rfl
        rw [he0, ihm, hrw, List.map_cons, holdp, List.dropLast_cons₂]
      · intro e he
        have hne0 : e ≠ e0 := fun h => he (h ▸ List.mem_cons_self e0 rest)
        have hner : ¬ e ∈ rest := fun h => he (List.mem_cons_of_mem e0 h)
        rw [List.head?_cons, hstep, iho e hner, lookupC_setC_ne ps p hne0]

theorem shiftWalk_bounds (segs : List (Nat × SnakeSegment)) :
    ∀ (fuel : Nat) (eo : Option Nat) (p : Position) (ps : List (Nat × Position)),
    (∀ pr ∈ ps, inBounds pr.2) → inBounds p →
    ∀ pr ∈ shiftWalk segs fuel eo p ps, inBounds pr.2 := by
  intro fuel
  induction fuel with
  | zero =>
    intro eo p ps hps _ pr hpr
    exact hps pr hpr
  | succ f ih =>
    intro eo p ps hps hp pr hpr
    cases eo with
    | none => exact hps pr hpr
    | some e =>
      cases h1 : lookupC ps e with
      | none =>
        cases h2 : lookupC segs e with
        | none =>
          simp only [shiftWalk, h1, h2] at hpr
          exact hps pr hpr
        | some seg =>
          simp only [shiftWalk, h1, h2] at hpr
          exact hps pr hpr
      | some oldp =>
        cases h2 : lookupC segs e with
        | none =>
          simp only [shiftWalk, h1, h2] at hpr
          exact hps pr hpr
        | some seg =>
          simp only [shiftWalk, h1, h2] at hpr
          have hset : ∀ q ∈ setC ps e p, inBounds q.2 := by
            intro q hq
            rcases mem_setC hq with hv | hv
            · rw [hv]
              exact hp
            · exact hps q hv
          have holdb : inBounds oldp := hps (e, oldp) (lookupC_mem h1)
          exact ih seg.back oldp (setC ps e p) hset holdb pr hpr

/-! ### `segment_movement` under the chain invariant -/

theorem headStarts_tail_nil (w : World) (x : Nat) (l : List Nat) :
    (chainLinks (some x) l).filterMap (fun pr =>
      if pr.2.front = none then (lookupC w.positions pr.1).map (fun p => (pr.2.back, p))
      else none) = [] := by
  induction l generalizing x with
  | nil => rfl
  | cons e rest ih => simp [chainLinks, List.filterMap_cons, ih]

theorem headStarts_eq (w : World) {e0 : Nat} {rest : List Nat}
    (hseg : w.segments = chainLinks none (e0 :: rest)) {p0 : Position}
    (hp : lookupC w.positions e0 = some p0) :
    headStarts w = [(rest.head?, p0)] := by
  rw [headStarts, hseg]
  simp only [chainLinks, List.filterMap_cons, hp]
  rw [headStarts_tail_nil]
  simp

theorem segment_movement_closed (w : World) {e0 : Nat} {rest : List Nat}
    (hseg : w.segments = chainLinks none (e0 :: rest)) {p0 : Position}
    (hp : lookupC w.positions e0 = some p0) :
    (segment_movement w).positions =
      shiftWalk w.segments w.segments.length rest.head? p0 w.positions ∧
    (segment_movement w).segments = w.segments ∧
    (segment_movement w).nextE = w.nextE ∧
    (segment_movement w).snakes = w.snakes ∧
    (segment_movement w).heads = w.heads ∧
    (segment_movement w).foods = w.foods ∧
    (segment_movement w).player = w.player ∧
    (segment_movement w).lastInput = w.lastInput ∧
    (segment_movement w).gamestate = w.gamestate := by
  rw [segment_movement, headStarts_eq w hseg hp]
  exact ⟨rfl, rfl, rfl, rfl, rfl, rfl, rfl, rfl, rfl⟩

theorem segment_movement_spec (w : World) {es : List Nat}
    (hne : es ≠ []) (hnd : es.Nodup) (hseg : w.segments = chainLinks none es)
    (hpos : ∀ e ∈ es, (lookupC w.positions e).isSome = true) :
    (segment_movement w).segments = w.segments ∧
    (segment_movement w).positions.map Prod.fst = w.positions.map Prod.fst ∧
    (∀ e, ¬ e ∈ es.tail →
      lookupC (segment_movement w).positions e = lookupC w.positions e) ∧
    (∀ (i : Nat) (h : i + 1 < es.length),
      lookupC (segment_movement w).positions (es.get ⟨i + 1, h⟩) =
        lookupC w.positions (es.get ⟨i, Nat.lt_of_succ_lt h⟩)) := by
  obtain ⟨e0, rest, rfl⟩ : ∃ e0 rest, es = e0 :: rest := by
    cases es with
    | nil => exact absurd rfl hne
    | cons a l => exact ⟨a, l, rfl⟩
  have h0 : (lookupC w.positions e0).isSome = true :=
    hpos e0 (List.mem_cons_self e0 rest)
  obtain ⟨p0, hp0⟩ := Option.isSome_iff_exists.mp h0
  obtain ⟨hcpos, hcseg, -, -, -, -, -, -, -⟩ := segment_movement_closed w hseg hp0
  have hnd2 := List.nodup_cons.mp hnd
  have hcl : ChainLinked w.segments (e0 :: rest) := by
    rw [hseg]
    exact chainLinked_chainLinks hnd none
  have hflen : (e0 :: rest).length ≤ w.segments.length := by
    rw [hseg, chainLinks_length]
  have hlen : rest.length ≤ w.segments.length := by
    simp only [List.length_cons] at hflen
    omega
  obtain ⟨ihm, iho⟩ := shiftWalk_spec w.segments rest w.segments.length p0 w.positions
    hcl.2 hnd2.2 (fun e he => hpos e (List.mem_cons_of_mem e0 he)) hlen
  refine ⟨hcseg, ?_, ?_, ?_⟩
  · rw [hcpos, shiftWalk_keys]
  · intro e he
    simp only [List.tail_cons] at he
    rw [hcpos, iho e he]
  · intro i hi
    have hget : (e0 :: rest).get ⟨i + 1, hi⟩ = rest.get ⟨i, by simpa using hi⟩ := rfl
    have hma := congrArg (fun xs => xs[i]?) ihm
    simp only [List.getElem?_map] at hma
    have hrg : rest[i]? = some (rest.get ⟨i, by simpa using hi⟩) := by
      rw [List.getElem?_eq_getElem (by simpa using hi)]
      simp [List.get_eq_getElem]
    rw [hrg] at hma
    simp only [Option.map_some'] at hma
    have hlen2 : (some p0 :: List.map (lookupC w.positions) rest).length = rest.length + 1 := by
      simp
    have hdrop : ((some p0 :: List.map (lookupC w.positions) rest).dropLast)[i]?
        = (some p0 :: List.map (lookupC w.positions) rest)[i]? := by
      rw [List.getElem?_dropLast, if_pos]
      rw [hlen2]
      simpa using hi
    rw [hdrop] at hma
    rw [hcpos]
    cases i with
    | zero =>
      simp only [List.getElem?_cons_zero] at hma
      rw [hget]
      have : lookupC (shiftWalk w.segments w.segments.length rest.head? p0 w.positions)
          (rest.get ⟨0, by simpa using hi⟩) = some p0 := by
        injection hma
      rw [this]
      exact hp0.symm
    | succ j =>
      simp only [List.getElem?_cons_succ, List.getElem?_map] at hma
      have hjlt : j < rest.length := by
        simp only [List.length_cons] at hi
        omega
      have hrg2 : rest[j]? = some (rest.get ⟨j, hjlt⟩) := by
        rw [List.getElem?_eq_getElem hjlt]
        simp [List.get_eq_getElem]
      rw [hrg2] at hma
      simp only [Option.map_some'] at hma
      have hma2 : lookupC (shiftWalk w.segments w.segments.length rest.head? p0 w.positions)
          (rest.get ⟨j + 1, by simpa using hi⟩)
          = lookupC w.positions (rest.get ⟨j, hjlt⟩) := by
        injection hma
      rw [hget, hma2]
      rfl

theorem segment_movement_bounds (w : World) {es : List Nat}
    (hne : es ≠ []) (hseg : w.segments = chainLinks none es)
    (hpos : ∀ e ∈ es, (lookupC w.positions e).isSome = true)
    (hb : ∀ pr ∈ w.positions, inBounds pr.2) :
    ∀ pr ∈ (segment_movement w).positions, inBounds pr.2 := by
  obtain ⟨e0, rest, rfl⟩ : ∃ e0 rest, es = e0 :: rest := by
    cases es with
    | nil => exact absurd rfl hne
    | cons a l => exact ⟨a, l, rfl⟩
  have h0 : (lookupC w.positions e0).isSome = true :=
    hpos e0 (List.mem_cons_self e0 rest)
  obtain ⟨p0, hp0⟩ := Option.isSome_iff_exists.mp h0
  obtain ⟨hcpos, -, -, -, -, -, -, -, -⟩ := segment_movement_closed w hseg hp0
  rw [hcpos]
  exact shiftWalk_bounds w.segments w.segments.length rest.head? p0 w.positions hb
    (hb (e0, p0) (lookupC_mem hp0))

/-! ### Head movement -/

theorem step_inBounds (p : Position) (d : Direction) : inBounds (step p d) := by
  rcases p with ⟨x, y⟩
  cases d
  all_goals
    simp only [step, inBounds, ARENA_WIDTH, ARENA_HEIGHT]
    split_ifs <;> constructor <;> omega

theorem step_ne (p : Position) (d : Direction) : step p d ≠ p := by
  rcases p with ⟨x, y⟩
  intro h
  cases d
  all_goals
    simp only [step, ARENA_WIDTH, ARENA_HEIGHT, Position.mk.injEq] at h
    rcases h with ⟨hx, hy⟩
    split_ifs at hx hy <;> omega

theorem snake_movement_fields (w : World) :
    (snake_movement w).segments = w.segments ∧
    (snake_movement w).nextE = w.nextE ∧
    (snake_movement w).snakes = w.snakes ∧
    (snake_movement w).heads = w.heads ∧
    (snake_movement w).foods = w.foods ∧
    (snake_movement w).gamestate = w.gamestate ∧
    (snake_movement w).lastInput = w.lastInput ∧
    (snake_movement w).player.snake = w.player.snake ∧
    (snake_movement w).player.food = w.player.food := by
  unfold snake_movement
  dsimp only
  split
  · split <;> exact ⟨rfl, rfl, rfl, rfl, rfl, rfl, rfl, rfl, rfl⟩
  · exact ⟨rfl, rfl, rfl, rfl, rfl, rfl, rfl, rfl, rfl⟩

theorem snake_movement_dir (w : World) :
    (snake_movement w).player.direction =
      (if w.lastInput ≠ w.player.direction.opposite then w.lastInput
       else w.player.direction) := by
  unfold snake_movement
  dsimp only
  split
  · split <;> rfl
  · rfl

theorem snake_movement_positions (w : World)
    (hmem : w.player.snake ∈ w.heads) {p : Position}
    (hp : lookupC w.positions w.player.snake = some p) :
    (snake_movement w).positions =
      setC w.positions w.player.snake
        (step p (if w.lastInput ≠ w.player.direction.opposite then w.lastInput
                 else w.player.direction)) := by
  unfold snake_movement
  dsimp only
  rw [if_pos hmem]
  simp only [hp]

/-! ### Simple field lemmas for the remaining systems -/

theorem food_spawner_fields (fires : Bool) (pick : List Position → Option Position)
    (w : World) :
    (food_spawner fires pick w).segments = w.segments ∧
    (food_spawner fires pick w).snakes = w.snakes ∧
    (food_spawner fires pick w).heads = w.heads ∧
    (food_spawner fires pick w).player = w.player ∧
    (food_spawner fires pick w).lastInput = w.lastInput ∧
    (food_spawner fires pick w).gamestate = w.gamestate := by
  unfold food_spawner
  split
  · split <;> exact ⟨rfl, rfl, rfl, rfl, rfl, rfl⟩
  · exact ⟨rfl, rfl, rfl, rfl, rfl, rfl⟩

theorem food_spawner_cases (fires : Bool) (pick : List Position → Option Position)
    (w : World) :
    food_spawner fires pick w = w ∨
    ∃ p, pick (freeCells w) = some p ∧ fires = true ∧
      food_spawner fires pick w = spawn_food w p := by
  unfold food_spawner
  cases fires with
  | false => exact Or.inl rfl
  | true =>
    cases hp : pick (freeCells w) with
    | none => exact Or.inl rfl
    | some p => exact Or.inr ⟨p, rfl, rfl, rfl⟩

theorem filter_ne_of_not_mem {l : List Nat} {a : Nat} (h : ¬ a ∈ l) :
    l.filter (fun x => decide (x ≠ a)) = l := by
  induction l with
  | nil => rfl
  | cons b rest ih =>
    have hba : b ≠ a := fun hb => h (hb ▸ List.mem_cons_self b rest)
    rw [List.filter_cons_of_pos (by simpa using hba),
      ih (fun hr => h (List.mem_cons_of_mem b hr))]

theorem filter_ne_keys_of_not_mem {α : Type} {l : List (Nat × α)} {a : Nat}
    (h : ¬ a ∈ l.map Prod.fst) :
    l.filter (fun pr => decide (pr.1 ≠ a)) = l := by
  induction l with
  | nil => rfl
  | cons b rest ih =>
    have hba : b.1 ≠ a := by
      intro hb
      exact h (List.mem_map.mpr ⟨b, List.mem_cons_self b rest, hb⟩)
    rw [List.filter_cons_of_pos (by simpa using hba)]
    rw [ih (fun hr => h (by simpa using Or.inr (by simpa using hr)))]

theorem mem_filter_ne {l : List Nat} {a e : Nat}
    (he : e ∈ l.filter (fun x => decide (x ≠ a))) : e ∈ l ∧ e ≠ a := by
  have h1 := List.mem_filter.mp he
  exact ⟨h1.1, by simpa using h1.2⟩

theorem nodup_snoc {l : List Nat} {a : Nat} (h : l.Nodup) (ha : ¬ a ∈ l) :
    (l ++ [a]).Nodup := by
  rw [List.nodup_append]
  refine ⟨h, List.nodup_singleton a, ?_⟩
  intro b hb hba
  rw [List.mem_singleton] at hba
  exact ha (hba ▸ hb)

/-! ### Invariant transport -/

theorem invE_congr {w w' : World} {es : List Nat} (hI : InvE w es)
    (h1 : w'.nextE = w.nextE) (h2 : w'.positions = w.positions)
    (h3 : w'.segments = w.segments) (h4 : w'.snakes = w.snakes)
    (h5 : w'.heads = w.heads) (h6 : w'.foods = w.foods)
    (h7 : w'.player = w.player) : InvE w' es :=
  ⟨hI.esNe, hI.esNd, by rw [h3]; exact hI.segsEq,
   by rw [h5, h7]; exact hI.headsEq,
   by rw [h7]; exact hI.headFst, by rw [h4]; exact hI.snakesSub,
   by rw [h4]; exact hI.snakesSup, by rw [h4]; exact hI.snakesNd,
   by rw [h6]; exact hI.foodsNd, by rw [h6]; exact hI.foodsDisj,
   by rw [h2]; exact hI.posKeysNd, by rw [h2]; exact hI.segsPos,
   by rw [h6, h2]; exact hI.foodsPos, by rw [h2]; exact hI.posBounds,
   by rw [h6, h2]; exact hI.foodsCells, by rw [h1]; exact hI.freshEs,
   by rw [h6, h1]; exact hI.freshFoods, by rw [h2, h1]; exact hI.freshPos⟩

/-! ### The food spawner preserves the invariant -/

theorem gridCells_inBounds : ∀ c ∈ gridCells, inBounds c := by decide

theorem freeCells_not_occupied {w : World} {p : Position} (h : p ∈ freeCells w) :
    ¬ p ∈ occupiedCells w := by
  have h1 := List.mem_filter.mp h
  simpa using h1.2

theorem freeCells_inBounds {w : World} {p : Position} (h : p ∈ freeCells w) :
    inBounds p :=
  gridCells_inBounds p (List.mem_of_mem_filter h)

theorem not_mem_of_forall_lt {l : List Nat} {n : Nat} (h : ∀ e ∈ l, e < n) :
    ¬ n ∈ l := fun hn => absurd (h n hn) (lt_irrefl n)

theorem inv_spawn_food {w : World} {es : List Nat} (hI : InvE w es)
    {p : Position} (hp : p ∈ freeCells w) : InvE (spawn_food w p) es := by
  have hnf : ¬ w.nextE ∈ w.foods := not_mem_of_forall_lt hI.freshFoods
  have hne : ¬ w.nextE ∈ es := not_mem_of_forall_lt hI.freshEs
  have hnk : ¬ w.nextE ∈ w.positions.map Prod.fst := not_mem_of_forall_lt hI.freshPos
  have hlknone : lookupC w.positions w.nextE = none := by
    cases hl : lookupC w.positions w.nextE with
    | none => rfl
    | some v =>
      exact absurd ((lookupC_isSome_iff w.positions w.nextE).mp (by rw [hl]; rfl)) hnk
  have hlknew : lookupC (w.positions ++ [(w.nextE, p)]) w.nextE = some p := by
    rw [lookupC_append_right _ hlknone]
    simp [lookupC]
  have hstable : ∀ e, (lookupC w.positions e).isSome = true →
      lookupC (w.positions ++ [(w.nextE, p)]) e = lookupC w.positions e :=
    fun e he => lookupC_snoc_isSome w.positions w.nextE p he
  refine ⟨hI.esNe, hI.esNd, hI.segsEq, hI.headsEq, hI.headFst, hI.snakesSub,
    hI.snakesSup, hI.snakesNd, ?_, ?_, ?_, ?_, ?_, ?_, ?_, ?_, ?_, ?_⟩
  · show (w.foods ++ [w.nextE]).Nodup
    exact nodup_snoc hI.foodsNd hnf
  · show ∀ e ∈ w.foods ++ [w.nextE], ¬ e ∈ es
    intro e he
    rcases List.mem_append.mp he with h1 | h1
    · exact hI.foodsDisj e h1
    · rw [List.mem_singleton] at h1
      exact h1 ▸ hne
  · show ((w.positions ++ [(w.nextE, p)]).map Prod.fst).Nodup
    rw [List.map_append]
    exact nodup_snoc hI.posKeysNd hnk
  · show ∀ e ∈ es, (lookupC (w.positions ++ [(w.nextE, p)]) e).isSome = true
    intro e he
    rw [hstable e (hI.segsPos e he)]
    exact hI.segsPos e he
  · show ∀ e ∈ w.foods ++ [w.nextE],
      (lookupC (w.positions ++ [(w.nextE, p)]) e).isSome = true
    intro e he
    rcases List.mem_append.mp he with h1 | h1
    · rw [hstable e (hI.foodsPos e h1)]
      exact hI.foodsPos e h1
    · rw [List.mem_singleton] at h1
      subst h1
      rw [hlknew]
      rfl
  · show ∀ pr ∈ w.positions ++ [(w.nextE, p)], inBounds pr.2
    intro pr hpr
    rcases List.mem_append.mp hpr with h1 | h1
    · exact hI.posBounds pr h1
    · rw [List.mem_singleton] at h1
      subst h1
      exact freeCells_inBounds hp
  · show (w.foods ++ [w.nextE]).Pairwise
      (fun a b => lookupC (w.positions ++ [(w.nextE, p)]) a ≠
        lookupC (w.positions ++ [(w.nextE, p)]) b)
    rw [List.pairwise_append]
    refine ⟨?_, List.pairwise_singleton _ _, ?_⟩
    · apply hI.foodsCells.imp_of_mem
      intro a b ha hb hne2
      rw [hstable a (hI.foodsPos a ha), hstable b (hI.foodsPos b hb)]
      exact hne2
    · intro a ha b hb
      rw [List.mem_singleton] at hb
      subst hb
      rw [hstable a (hI.foodsPos a ha), hlknew]
      obtain ⟨qa, hqa⟩ := Option.isSome_iff_exists.mp (hI.foodsPos a ha)
      rw [hqa]
      intro hcontra
      have hqp : qa = p := by injection hcontra
      apply freeCells_not_occupied hp
      rw [← hqp]
      exact List.mem_map.mpr ⟨(a, qa), lookupC_mem hqa, rfl⟩
  · show ∀ e ∈ es, e < w.nextE + 1
    intro e he
    exact Nat.lt_succ_of_lt (hI.freshEs e he)
  · show ∀ e ∈ w.foods ++ [w.nextE], e < w.nextE + 1
    intro e he
    rcases List.mem_append.mp he with h1 | h1
    · exact Nat.lt_succ_of_lt (hI.freshFoods e h1)
    · rw [List.mem_singleton] at h1
      subst h1
      exact Nat.lt_succ_self _
  · show ∀ e ∈ (w.positions ++ [(w.nextE, p)]).map Prod.fst, e < w.nextE + 1
    intro e he
    rw [List.map_append] at he
    rcases List.mem_append.mp he with h1 | h1
    · exact Nat.lt_succ_of_lt (hI.freshPos e h1)
    · simp only [List.map_cons, List.map_nil, List.mem_singleton] at h1
      subst h1
      exact Nat.lt_succ_self _

theorem inv_food_spawner {w : World} {es : List Nat} (fires : Bool)
    {pick : List Position → Option Position} (hpk : PickOk pick)
    (hI : InvE w es) : InvE (food_spawner fires pick w) es := by
  rcases food_spawner_cases fires pick w with h | ⟨p, hp, -, h⟩
  · rw [h]
    exact hI
  · rw [h]
    exact inv_spawn_food hI (hpk _ p hp)

/-! ### The movement systems preserve the invariant -/

theorem isSome_of_keys_eq {α : Type} {ps qs : List (Nat × α)}
    (h : qs.map Prod.fst = ps.map Prod.fst) {e : Nat}
    (he : (lookupC ps e).isSome = true) : (lookupC qs e).isSome = true := by
  rw [lookupC_isSome_iff] at he ⊢
  rw [h]
  exact he

theorem head_mem_of_headq {l : List Nat} {a : Nat} (h : l.head? = some a) :
    a ∈ l := by
  cases l with
  | nil => simp at h
  | cons b t =>
    rw [List.head?_cons] at h
    injection h with h
    exact h ▸ List.mem_cons_self b t

theorem inv_segment_movement {w : World} {es : List Nat} (hI : InvE w es) :
    InvE (segment_movement w) es := by
  obtain ⟨hseg, hkeys, hout, hsh⟩ :=
    segment_movement_spec w hI.esNe hI.esNd hI.segsEq hI.segsPos
  refine ⟨hI.esNe, hI.esNd, hI.segsEq, hI.headsEq, hI.headFst, hI.snakesSub,
    hI.snakesSup, hI.snakesNd, hI.foodsNd, hI.foodsDisj, ?_, ?_, ?_, ?_, ?_,
    hI.freshEs, hI.freshFoods, ?_⟩
  · rw [hkeys]
    exact hI.posKeysNd
  · intro e he
    exact isSome_of_keys_eq hkeys (hI.segsPos e he)
  · intro e he
    exact isSome_of_keys_eq hkeys (hI.foodsPos e he)
  · exact segment_movement_bounds w hI.esNe hI.segsEq hI.segsPos hI.posBounds
  · apply hI.foodsCells.imp_of_mem
    intro a b ha hb hne2
    have hta : ¬ a ∈ es.tail := fun h => hI.foodsDisj a ha (List.mem_of_mem_tail h)
    have htb : ¬ b ∈ es.tail := fun h => hI.foodsDisj b hb (List.mem_of_mem_tail h)
    rw [hout a hta, hout b htb]
    exact hne2
  · rw [hkeys]
    exact hI.freshPos

theorem inv_snake_movement {w : World} {es : List Nat} (hI : InvE w es) :
    InvE (snake_movement w) es := by
  obtain ⟨f1, f2, f3, f4, f5, f6, f7, f8, f9⟩ := snake_movement_fields w
  have hmem : w.player.snake ∈ w.heads := by
    rw [hI.headsEq]
    exact List.mem_singleton.mpr rfl
  have hpe : w.player.snake ∈ es := head_mem_of_headq hI.headFst
  obtain ⟨p, hp⟩ := Option.isSome_iff_exists.mp (hI.segsPos _ hpe)
  have hpos' := snake_movement_positions w hmem hp
  refine ⟨hI.esNe, hI.esNd, ?_, ?_, ?_, ?_, ?_, ?_, ?_, ?_, ?_, ?_, ?_,
    ?_, ?_, ?_, ?_, ?_⟩
  · rw [f1]
    exact hI.segsEq
  · rw [f4, f8]
    exact hI.headsEq
  · rw [f8]
    exact hI.headFst
  · rw [f3]
    exact hI.snakesSub
  · rw [f3]
    exact hI.snakesSup
  · rw [f3]
    exact hI.snakesNd
  · rw [show (snake_movement w).foods = w.foods from f5]
    exact hI.foodsNd
  · rw [show (snake_movement w).foods = w.foods from f5]
    exact hI.foodsDisj
  · rw [hpos', setC_keys]
    exact hI.posKeysNd
  · intro e he
    exact isSome_of_keys_eq (by rw [hpos', setC_keys]) (hI.segsPos e he)
  · intro e he
    rw [show (snake_movement w).foods = w.foods from f5] at he
    exact isSome_of_keys_eq (by rw [hpos', setC_keys]) (hI.foodsPos e he)
  · intro pr hpr
    rw [hpos'] at hpr
    rcases mem_setC hpr with h1 | h1
    · rw [h1]
      exact step_inBounds p _
    · exact hI.posBounds pr h1
  · rw [show (snake_movement w).foods = w.foods from f5]
    apply hI.foodsCells.imp_of_mem
    intro a b ha hb hne2
    have hna : a ≠ w.player.snake := fun h => hI.foodsDisj a ha (h ▸ hpe)
    have hnb : b ≠ w.player.snake := fun h => hI.foodsDisj b hb (h ▸ hpe)
    rw [hpos', lookupC_setC_ne w.positions _ hna, lookupC_setC_ne w.positions _ hnb]
    exact hne2
  · rw [f2]
    exact hI.freshEs
  · rw [show (snake_movement w).foods = w.foods from f5, f2]
    exact hI.freshFoods
  · rw [hpos', setC_keys, f2]
    exact hI.freshPos

/-! ### Collision events under the invariant -/

theorem headsWithPos_under_inv {w : World} {es : List Nat} (hI : InvE w es) :
    ∃ ph, lookupC w.positions w.player.snake = some ph ∧
      headsWithPos w = [(w.player.snake, ph)] := by
  have hpe : w.player.snake ∈ es := head_mem_of_headq hI.headFst
  obtain ⟨ph, hp⟩ := Option.isSome_iff_exists.mp (hI.segsPos _ hpe)
  refine ⟨ph, hp, ?_⟩
  rw [headsWithPos, hI.headsEq]
  simp [hp]

theorem foodsWithPos_mem {w : World} {fp : Nat × Position}
    (h : fp ∈ foodsWithPos w) :
    fp.1 ∈ w.foods ∧ lookupC w.positions fp.1 = some fp.2 := by
  rw [foodsWithPos] at h
  obtain ⟨e, he, heq⟩ := List.mem_filterMap.mp h
  cases hl : lookupC w.positions e with
  | none =>
    rw [hl] at heq
    simp at heq
  | some p =>
    rw [hl] at heq
    simp only [Option.map_some'] at heq
    injection heq with heq
    rw [← heq]
    exact ⟨he, hl⟩

theorem bodyWithPos_elim {w : World} {bp : Nat × Position} (h : bp ∈ bodyWithPos w) :
    bp.1 ∈ w.snakes ∧ ¬ bp.1 ∈ w.heads ∧ lookupC w.positions bp.1 = some bp.2 := by
  rw [bodyWithPos] at h
  obtain ⟨e, he, heq⟩ := List.mem_filterMap.mp h
  obtain ⟨he1, he2⟩ := List.mem_filter.mp he
  cases hl : lookupC w.positions e with
  | none =>
    rw [hl] at heq
    simp at heq
  | some p =>
    rw [hl] at heq
    simp only [Option.map_some'] at heq
    injection heq with heq
    rw [← heq]
    exact ⟨he1, by simpa using he2, hl⟩

theorem foodsWithPos_pairwise {w : World} {es : List Nat} (hI : InvE w es) :
    (foodsWithPos w).Pairwise (fun a b => a.2 ≠ b.2) := by
  rw [foodsWithPos]
  rw [List.pairwise_filterMap]
  apply hI.foodsCells.imp_of_mem
  intro a b ha hb hne2 x hx y hy
  cases hla : lookupC w.positions a with
  | none =>
    rw [hla] at hx
    simp at hx
  | some pa =>
    rw [hla] at hx
    simp only [Option.map_some', Option.mem_def, Option.some.injEq] at hx
    cases hlb : lookupC w.positions b with
    | none =>
      rw [hlb] at hy
      simp at hy
    | some pb =>
      rw [hlb] at hy
      simp only [Option.map_some', Option.mem_def, Option.some.injEq] at hy
      rw [← hx, ← hy]
      simp only [ne_eq]
      intro hab
      apply hne2
      rw [hla, hlb, hab]

theorem filterMap_if_single (h : Nat) (ph : Position) {l : List (Nat × Position)}
    (hpw : l.Pairwise (fun a b => a.2 ≠ b.2)) :
    (l.filterMap (fun f => if ph = f.2 then some (⟨h, f.1⟩ : EatEvent) else none)) = [] ∨
    ∃ f, f ∈ l ∧ f.2 = ph ∧
      (l.filterMap (fun f => if ph = f.2 then some (⟨h, f.1⟩ : EatEvent) else none))
        = [⟨h, f.1⟩] := by
  induction l with
  | nil => exact Or.inl rfl
  | cons a rest ih =>
    obtain ⟨hhead, htail⟩ := List.pairwise_cons.mp hpw
    by_cases hpa : ph = a.2
    · right
      refine ⟨a, List.mem_cons_self a rest, hpa.symm, ?_⟩
      rw [List.filterMap_cons]
      simp only [if_pos hpa]
      have hnil : (rest.filterMap (fun f =>
          if ph = f.2 then some (⟨h, f.1⟩ : EatEvent) else none)) = [] := by
        rw [List.filterMap_eq_nil_iff]
        intro b hb
        rw [if_neg]
        intro hpb
        exact hhead b hb (hpa ▸ hpb ▸ rfl)
      rw [hnil]
    · rw [List.filterMap_cons]
      simp only [if_neg hpa]
      rcases ih htail with h1 | ⟨f, hf, hf2, h1⟩
      · exact Or.inl h1
      · exact Or.inr ⟨f, List.mem_cons_of_mem a hf, hf2, h1⟩

theorem eats_characterization {w : World} {es : List Nat} (hI : InvE w es) :
    (collision_solver w).1 = [] ∨
    ∃ f pf, f ∈ w.foods ∧ lookupC w.positions f = some pf ∧
      lookupC w.positions w.player.snake = some pf ∧
      (collision_solver w).1 = [⟨w.player.snake, f⟩] := by
  obtain ⟨ph, hp, hh⟩ := headsWithPos_under_inv hI
  have hcol : (collision_solver w).1 = (foodsWithPos w).filterMap
      (fun f => if ph = f.2 then some (⟨w.player.snake, f.1⟩ : EatEvent) else none) := by
    rw [collision_solver, hh]
    rw [List.flatMap_cons, List.flatMap_nil, List.append_nil]
  rcases filterMap_if_single w.player.snake ph
      (foodsWithPos_pairwise hI) with h1 | ⟨f, hf, hf2, h1⟩
  · left
    rw [hcol, h1]
  · right
    obtain ⟨hmem, hlk⟩ := foodsWithPos_mem hf
    exact ⟨f.1, ph, hmem, by rw [hlk, hf2], hp, by rw [hcol, h1]⟩

theorem bumps_elim {w : World} {b : BumpEvent} (hb : b ∈ (collision_solver w).2) :
    ∃ hp, hp ∈ headsWithPos w ∧ ∃ bp, bp ∈ bodyWithPos w ∧ hp.2 = bp.2 ∧
      b = ⟨hp.1, bp.1⟩ := by
  rw [collision_solver] at hb
  obtain ⟨hp, hhp, hbmem⟩ := List.mem_flatMap.mp hb
  obtain ⟨bp, hbp, heq⟩ := List.mem_filterMap.mp hbmem
  by_cases h : hp.2 = bp.2
  · rw [if_pos h] at heq
    injection heq with heq
    exact ⟨hp, hhp, bp, hbp, h, heq.symm⟩
  · rw [if_neg h] at heq
    simp at heq

theorem bumps_intro {w : World} {h b : Nat} {ph : Position}
    (hh : h ∈ w.heads) (hph : lookupC w.positions h = some ph)
    (hb : b ∈ w.snakes) (hbh : ¬ b ∈ w.heads)
    (hpb : lookupC w.positions b = some ph) :
    (⟨h, b⟩ : BumpEvent) ∈ (collision_solver w).2 := by
  rw [collision_solver]
  apply List.mem_flatMap.mpr
  refine ⟨(h, ph), ?_, ?_⟩
  · rw [headsWithPos]
    exact List.mem_filterMap.mpr ⟨h, hh, by rw [hph]; rfl⟩
  · apply List.mem_filterMap.mpr
    refine ⟨(b, ph), ?_, ?_⟩
    · rw [bodyWithPos]
      apply List.mem_filterMap.mpr
      refine ⟨b, ?_, by rw [hpb]; rfl⟩
      exact List.mem_filter.mpr ⟨hb, by simpa using hbh⟩
    · simp

/-! ### Appending a segment to the chain table -/

theorem getLast_getElem? {l : List Nat} (h : l ≠ []) :
    l[l.length - 1]? = some (l.getLast h) := by
  rw [List.getLast_eq_getElem]
  exact List.getElem?_eq_getElem
    (by cases l with | nil => exact absurd rfl h | cons a t => simp)

theorem chainLinks_snoc :
    ∀ (l : List Nat) (f : Option Nat) (hne : l ≠ []) (_ : l.Nodup) (n : Nat)
      (sl : SnakeSegment),
    lookupC (chainLinks f l) (l.getLast hne) = some sl →
    chainLinks f (l ++ [n]) =
      setC (chainLinks f l) (l.getLast hne) ⟨sl.front, some n⟩ ++
        [(n, ⟨some (l.getLast hne), none⟩)] := by
  intro l
  induction l with
  | nil =>
    intro f hne
    exact absurd rfl hne
  | cons e rest ih =>
    intro f hne hnd n sl hsl
    cases rest with
    | nil =>
      have hgl1 : [e].getLast hne = e := List.getLast_singleton e hne
      rw [hgl1] at hsl ⊢
      have hsl2 : sl = ⟨f, none⟩ := by
        simp only [chainLinks, lookupC, List.head?_nil, if_pos rfl] at hsl
        injection hsl with hsl
        exact hsl.symm
      subst hsl2
      show chainLinks f [e, n] = setC [(e, ⟨f, none⟩)] e ⟨f, some n⟩ ++ _
      rw [setC_cons, if_pos rfl]
      simp [chainLinks, setC]
    | cons b rest2 =>
      have hnd2 := List.nodup_cons.mp hnd
      have hgl : (e :: b :: rest2).getLast hne = (b :: rest2).getLast
          (List.cons_ne_nil b rest2) := List.getLast_cons (List.cons_ne_nil b rest2)
      have hetl : e ≠ (b :: rest2).getLast (List.cons_ne_nil b rest2) := by
        intro h
        exact hnd2.1 (h ▸ List.getLast_mem (List.cons_ne_nil b rest2))
      have hsl2 : lookupC (chainLinks (some e) (b :: rest2))
          ((b :: rest2).getLast (List.cons_ne_nil b rest2)) = some sl := by
        rw [hgl] at hsl
        simpa only [chainLinks, lookupC, List.head?_cons, if_neg hetl] using hsl
      have hih := ih (some e) (List.cons_ne_nil b rest2) hnd2.2 n sl hsl2
      rw [hgl]
      show chainLinks f (e :: ((b :: rest2) ++ [n])) = _
      rw [show chainLinks f (e :: ((b :: rest2) ++ [n]))
          = (e, ⟨f, ((b :: rest2) ++ [n]).head?⟩) :: chainLinks (some e) ((b :: rest2) ++ [n])
        from rfl]
      rw [hih]
      rw [show ((b :: rest2) ++ [n]).head? = some b from rfl]
      rw [show chainLinks f (e :: b :: rest2)
          = (e, ⟨f, some b⟩) :: chainLinks (some e) (b :: rest2) from rfl]
      rw [setC_cons, if_neg hetl]
      rfl

theorem inv_tail_lookup {w : World} {es : List Nat} (hI : InvE w es) :
    ∃ sl, lookupC w.segments (es.getLast hI.esNe) = some sl ∧ sl.back = none := by
  have hlen : 0 < es.length := List.length_pos.mpr hI.esNe
  have hgl := getLast_getElem? hI.esNe
  have hlk := lookupC_chainLinks hI.esNd none hgl
  rw [← hI.segsEq] at hlk
  refine ⟨_, hlk, ?_⟩
  show es[es.length - 1 + 1]? = none
  rw [show es.length - 1 + 1 = es.length from by omega]
  exact List.getElem?_eq_none (le_refl _)

theorem inv_get_tail {w : World} {es : List Nat} (hI : InvE w es) :
    get_tail w.segments w.segments.length w.player.snake = es.getLast hI.esNe := by
  have hcl : ChainLinked w.segments es := by
    rw [hI.segsEq]
    exact chainLinked_chainLinks hI.esNd none
  obtain ⟨e0, rest, hes⟩ : ∃ e0 rest, es = e0 :: rest := by
    cases es with
    | nil => exact absurd rfl hI.esNe
    | cons a l => exact ⟨a, l, rfl⟩
  have he0 : e0 = w.player.snake := by
    have := hI.headFst
    rw [hes, List.head?_cons] at this
    injection this
  have hfuel : rest.length ≤ w.segments.length := by
    rw [hI.segsEq, chainLinks_length, hes]
    simp
  have hgt := get_tail_chain w.segments rest e0 w.segments.length
    (by rw [← hes]; exact hcl) hfuel
  rw [← he0, hgt]
  congr 1
  all_goals rw [hes]

/-! ### Eat resolution preserves the invariant -/

theorem inv_eatStep {w : World} {es : List Nat} (hI : InvE w es) {f : Nat}
    (hf : f ∈ w.foods) :
    InvE (eatStep w ⟨w.player.snake, f⟩) (es ++ [w.nextE]) ∧
    (eatStep w ⟨w.player.snake, f⟩).segments.length = w.segments.length + 1 ∧
    (eatStep w ⟨w.player.snake, f⟩).player.food = w.player.food + 1 ∧
    (¬ f ∈ (eatStep w ⟨w.player.snake, f⟩).foods) ∧
    (eatStep w ⟨w.player.snake, f⟩).gamestate = w.gamestate := by
  obtain ⟨sl, hsl, hslb⟩ := inv_tail_lookup hI
  have htl := inv_get_tail hI
  have htl_mem : es.getLast hI.esNe ∈ es := List.getLast_mem hI.esNe
  obtain ⟨tpos, htpos⟩ := Option.isSome_iff_exists.mp (hI.segsPos _ htl_mem)
  have hfes : ¬ f ∈ es := hI.foodsDisj f hf
  have hfn : f ≠ w.nextE := Nat.ne_of_lt (hI.freshFoods f hf)
  have hnes : ¬ w.nextE ∈ es := not_mem_of_forall_lt hI.freshEs
  have hnfoods : ¬ w.nextE ∈ w.foods := not_mem_of_forall_lt hI.freshFoods
  have hnkeys : ¬ w.nextE ∈ w.positions.map Prod.fst := not_mem_of_forall_lt hI.freshPos
  have hnsnakes : ¬ w.nextE ∈ w.snakes := fun h => hnes (hI.snakesSub _ h)
  have hps_es : w.player.snake ∈ es := head_mem_of_headq hI.headFst
  have hfps : f ≠ w.player.snake := fun h => hfes (h ▸ hps_es)
  have hsl' : lookupC w.segments
      (get_tail w.segments w.segments.length w.player.snake) = some sl := by
    rw [htl]
    exact hsl
  have htpos' : lookupC w.positions
      (get_tail w.segments w.segments.length w.player.snake) = some tpos := by
    rw [htl]
    exact htpos
  have hstep : eatStep w ⟨w.player.snake, f⟩ = { w with
      nextE := w.nextE + 1,
      positions := (w.positions ++ [(w.nextE, tpos)]).filter
        (fun pr => decide (pr.1 ≠ f)),
      segments := (setC w.segments (es.getLast hI.esNe) ⟨sl.front, some w.nextE⟩ ++
        [(w.nextE, (⟨some (es.getLast hI.esNe), none⟩ : SnakeSegment))]).filter
          (fun pr => decide (pr.1 ≠ f)),
      snakes := (w.snakes ++ [w.nextE]).filter (fun a => decide (a ≠ f)),
      heads := w.heads.filter (fun a => decide (a ≠ f)),
      foods := w.foods.filter (fun a => decide (a ≠ f)),
      player := ⟨w.player.snake, w.player.direction, w.player.food + 1⟩ } := by
    simp only [eatStep, htl, hsl, htpos, despawn, eq_self_iff_true, if_true]
  have hsegkeys : w.segments.map Prod.fst = es := by
    rw [hI.segsEq, chainLinks_keys]
  have hfullkeys : (setC w.segments (es.getLast hI.esNe) ⟨sl.front, some w.nextE⟩ ++
      [(w.nextE, (⟨some (es.getLast hI.esNe), none⟩ : SnakeSegment))]).map Prod.fst
      = es ++ [w.nextE] := by
    rw [List.map_append, setC_keys, hsegkeys]
    rfl
  have hfiltseg : (setC w.segments (es.getLast hI.esNe) ⟨sl.front, some w.nextE⟩ ++
      [(w.nextE, (⟨some (es.getLast hI.esNe), none⟩ : SnakeSegment))]).filter
        (fun pr => decide (pr.1 ≠ f))
      = setC w.segments (es.getLast hI.esNe) ⟨sl.front, some w.nextE⟩ ++
        [(w.nextE, ⟨some (es.getLast hI.esNe), none⟩)] := by
    apply filter_ne_keys_of_not_mem
    rw [hfullkeys]
    intro hmem
    rcases List.mem_append.mp hmem with h1 | h1
    · exact hfes h1
    · rw [List.mem_singleton] at h1
      exact hfn h1
  have hsnakesf : (w.snakes ++ [w.nextE]).filter (fun a => decide (a ≠ f))
      = w.snakes ++ [w.nextE] := by
    apply filter_ne_of_not_mem
    intro hmem
    rcases List.mem_append.mp hmem with h1 | h1
    · exact hfes (hI.snakesSub f h1)
    · rw [List.mem_singleton] at h1
      exact hfn h1
  have hheadsf : w.heads.filter (fun a => decide (a ≠ f)) = w.heads := by
    apply filter_ne_of_not_mem
    rw [hI.headsEq]
    intro hmem
    rw [List.mem_singleton] at hmem
    exact hfps hmem
  have hchain : chainLinks none (es ++ [w.nextE])
      = setC w.segments (es.getLast hI.esNe) ⟨sl.front, some w.nextE⟩ ++
        [(w.nextE, ⟨some (es.getLast hI.esNe), none⟩)] := by
    rw [hI.segsEq] at hsl ⊢
    exact chainLinks_snoc es none hI.esNe hI.esNd w.nextE sl hsl
  have hlknew : lookupC ((w.positions ++ [(w.nextE, tpos)]).filter
      (fun pr => decide (pr.1 ≠ f))) w.nextE = some tpos := by
    rw [lookupC_filter_ne _ (Ne.symm hfn)]
    have hlknone : lookupC w.positions w.nextE = none := by
      cases hl : lookupC w.positions w.nextE with
      | none => rfl
      | some v =>
        exact absurd ((lookupC_isSome_iff w.positions w.nextE).mp
          (by rw [hl]; rfl)) hnkeys
    rw [lookupC_append_right _ hlknone]
    simp [lookupC]
  have hstable : ∀ e, e ≠ f → (lookupC w.positions e).isSome = true →
      lookupC ((w.positions ++ [(w.nextE, tpos)]).filter
        (fun pr => decide (pr.1 ≠ f))) e = lookupC w.positions e := by
    intro e hef hsome
    rw [lookupC_filter_ne _ hef, lookupC_snoc_isSome _ _ _ hsome]
  have hesne2 : es ++ [w.nextE] ≠ [] := by simp
  have hheadq2 : (es ++ [w.nextE]).head? = some w.player.snake := by
    cases hes2 : es with
    | nil => exact absurd hes2 hI.esNe
    | cons a l =>
      have := hI.headFst
      rw [hes2] at this
      simpa using this
  rw [hstep]
  refine ⟨⟨hesne2, ?_, ?_, ?_, ?_, ?_, ?_, ?_, ?_, ?_, ?_, ?_, ?_, ?_, ?_, ?_,
      ?_, ?_⟩, ?_, ?_, ?_, ?_⟩
  · exact nodup_snoc hI.esNd hnes
  · show (setC w.segments _ _ ++ _).filter _ = chainLinks none (es ++ [w.nextE])
    rw [hfiltseg, hchain]
  · show w.heads.filter _ = [w.player.snake]
    rw [hheadsf, hI.headsEq]
  · exact hheadq2
  · show ∀ e ∈ (w.snakes ++ [w.nextE]).filter _, e ∈ es ++ [w.nextE]
    rw [hsnakesf]
    intro e he
    rcases List.mem_append.mp he with h1 | h1
    · exact List.mem_append.mpr (Or.inl (hI.snakesSub e h1))
    · exact List.mem_append.mpr (Or.inr h1)
  · show ∀ e ∈ es ++ [w.nextE], e ∈ (w.snakes ++ [w.nextE]).filter _
    rw [hsnakesf]
    intro e he
    rcases List.mem_append.mp he with h1 | h1
    · exact List.mem_append.mpr (Or.inl (hI.snakesSup e h1))
    · exact List.mem_append.mpr (Or.inr h1)
  · show ((w.snakes ++ [w.nextE]).filter _).Nodup
    rw [hsnakesf]
    exact nodup_snoc hI.snakesNd hnsnakes
  · exact hI.foodsNd.filter _
  · show ∀ e ∈ w.foods.filter _, ¬ e ∈ es ++ [w.nextE]
    intro e he hmem
    obtain ⟨he1, he2⟩ := mem_filter_ne he
    rcases List.mem_append.mp hmem with h1 | h1
    · exact hI.foodsDisj e he1 h1
    · rw [List.mem_singleton] at h1
      exact hnfoods (h1 ▸ he1)
  · show (((w.positions ++ [(w.nextE, tpos)]).filter _).map Prod.fst).Nodup
    apply List.Nodup.sublist (List.Sublist.map Prod.fst (List.filter_sublist _))
    rw [List.map_append]
    exact nodup_snoc hI.posKeysNd hnkeys
  · show ∀ e ∈ es ++ [w.nextE], (lookupC ((w.positions ++ [(w.nextE, tpos)]).filter _) e).isSome = true
    intro e he
    rcases List.mem_append.mp he with h1 | h1
    · have hef : e ≠ f := fun h => hfes (h ▸ h1)
      rw [hstable e hef (hI.segsPos e h1)]
      exact hI.segsPos e h1
    · rw [List.mem_singleton] at h1
      subst h1
      rw [hlknew]
      rfl
  · show ∀ e ∈ w.foods.filter _, (lookupC ((w.positions ++ [(w.nextE, tpos)]).filter _) e).isSome = true
    intro e he
    obtain ⟨he1, he2⟩ := mem_filter_ne he
    rw [hstable e he2 (hI.foodsPos e he1)]
    exact hI.foodsPos e he1
  · show ∀ pr ∈ (w.positions ++ [(w.nextE, tpos)]).filter _, inBounds pr.2
    intro pr hpr
    have hpr2 := List.mem_of_mem_filter hpr
    rcases List.mem_append.mp hpr2 with h1 | h1
    · exact hI.posBounds pr h1
    · rw [List.mem_singleton] at h1
      subst h1
      exact hI.posBounds (es.getLast hI.esNe, tpos) (lookupC_mem htpos)
  · show (w.foods.filter _).Pairwise _
    apply List.Pairwise.imp_of_mem ?_ (hI.foodsCells.sublist (List.filter_sublist _))
    intro a b ha hb hne2
    obtain ⟨ha1, ha2⟩ := mem_filter_ne ha
    obtain ⟨hb1, hb2⟩ := mem_filter_ne hb
    rw [hstable a ha2 (hI.foodsPos a ha1), hstable b hb2 (hI.foodsPos b hb1)]
    exact hne2
  · show ∀ e ∈ es ++ [w.nextE], e < w.nextE + 1
    intro e he
    rcases List.mem_append.mp he with h1 | h1
    · exact Nat.lt_succ_of_lt (hI.freshEs e h1)
    · rw [List.mem_singleton] at h1
      subst h1
      exact Nat.lt_succ_self _
  · show ∀ e ∈ w.foods.filter _, e < w.nextE + 1
    intro e he
    exact Nat.lt_succ_of_lt (hI.freshFoods e (mem_filter_ne he).1)
  · show ∀ e ∈ ((w.positions ++ [(w.nextE, tpos)]).filter _).map Prod.fst, e < w.nextE + 1
    intro e he
    obtain ⟨pr, hpr, hpre⟩ := List.mem_map.mp he
    have hpr2 := List.mem_of_mem_filter hpr
    rcases List.mem_append.mp hpr2 with h1 | h1
    · exact Nat.lt_succ_of_lt (hI.freshPos e (hpre ▸ List.mem_map.mpr ⟨pr, h1, rfl⟩))
    · rw [List.mem_singleton] at h1
      rw [h1] at hpre
      rw [← hpre]
      exact Nat.lt_succ_self _
  · show ((setC w.segments _ _ ++ _).filter _).length = w.segments.length + 1
    rw [hfiltseg, List.length_append, setC_length]
    rfl
  · rfl
  · show ¬ f ∈ w.foods.filter _
    intro hmem
    exact (mem_filter_ne hmem).2 rfl
  · rfl

/-! ### The resolvers, the whole tick, and reachability -/

theorem inv_eat_solver {w : World} {es : List Nat} (hI : InvE w es) :
    ∃ es', InvE (eat_events_solver (collision_solver w).1 w) es' := by
  rcases eats_characterization hI with h | ⟨f, pf, hf, -, -, h⟩
  · rw [h]
    exact ⟨es, hI⟩
  · rw [h]
    have hone : eat_events_solver [⟨w.player.snake, f⟩] w
        = eatStep w ⟨w.player.snake, f⟩ := rfl
    rw [hone]
    exact ⟨es ++ [w.nextE], (inv_eatStep hI hf).1⟩

theorem inv_gamestate {w : World} {es : List Nat} (hI : InvE w es)
    (g : GameState) : InvE { w with gamestate := g } es :=
  invE_congr hI rfl rfl rfl rfl rfl rfl rfl

theorem inv_bump_solver {w : World} {es : List Nat} (bs : List BumpEvent)
    (hI : InvE w es) : InvE (bump_events_solver bs w) es := by
  cases bs with
  | nil => exact hI
  | cons b rest => exact inv_gamestate hI GameState.Lost

theorem eat_solver_fields (events : List EatEvent) (w : World) :
    (eat_events_solver events w).gamestate = w.gamestate ∧
    (eat_events_solver events w).lastInput = w.lastInput ∧
    (eat_events_solver events w).player.snake = w.player.snake := by
  induction events generalizing w with
  | nil => exact ⟨rfl, rfl, rfl⟩
  | cons ev rest ih =>
    have hstep : (eatStep w ev).gamestate = w.gamestate ∧
        (eatStep w ev).lastInput = w.lastInput ∧
        (eatStep w ev).player.snake = w.player.snake := by
      rw [eatStep]
      cases h1 : lookupC w.segments (get_tail w.segments w.segments.length ev.eater) with
      | none =>
        cases h2 : lookupC w.positions (get_tail w.segments w.segments.length ev.eater) with
        | none => exact ⟨rfl, rfl, rfl⟩
        | some p => exact ⟨rfl, rfl, rfl⟩
      | some s =>
        cases h2 : lookupC w.positions (get_tail w.segments w.segments.length ev.eater) with
        | none => exact ⟨rfl, rfl, rfl⟩
        | some p =>
          dsimp only
          split <;> exact ⟨rfl, rfl, rfl⟩
    have hrest := ih (eatStep w ev)
    refine ⟨?_, ?_, ?_⟩
    · rw [show eat_events_solver (ev :: rest) w
        = eat_events_solver rest (eatStep w ev) from rfl, hrest.1, hstep.1]
    · rw [show eat_events_solver (ev :: rest) w
        = eat_events_solver rest (eatStep w ev) from rfl, hrest.2.1, hstep.2.1]
    · rw [show eat_events_solver (ev :: rest) w
        = eat_events_solver rest (eatStep w ev) from rfl, hrest.2.2, hstep.2.2]

theorem inv_playing_tick {w : World} {es : List Nat} (fires : Bool)
    {pick : List Position → Option Position} (hpk : PickOk pick)
    (hI : InvE w es) : ∃ es', InvE (playing_tick fires pick w) es' := by
  have hI1 := inv_food_spawner fires hpk hI
  have hI2 := inv_segment_movement hI1
  have hI3 := inv_snake_movement hI2
  obtain ⟨es', hI4⟩ := inv_eat_solver hI3
  exact ⟨es', inv_bump_solver _ hI4⟩

theorem inv_tick {w : World} {es : List Nat} (fires : Bool)
    {pick : List Position → Option Position} (hpk : PickOk pick)
    (hI : InvE w es) : ∃ es', InvE (tick fires pick w) es' := by
  rw [tick]
  by_cases hg : w.gamestate = GameState.Playing
  · rw [if_pos hg]
    exact inv_playing_tick fires hpk hI
  · rw [if_neg hg]
    exact ⟨es, hI⟩

theorem input_fields (keys : Keys) (w : World) :
    (input_events_sender keys w).nextE = w.nextE ∧
    (input_events_sender keys w).positions = w.positions ∧
    (input_events_sender keys w).segments = w.segments ∧
    (input_events_sender keys w).snakes = w.snakes ∧
    (input_events_sender keys w).heads = w.heads ∧
    (input_events_sender keys w).foods = w.foods ∧
    (input_events_sender keys w).player = w.player := by
  unfold input_events_sender
  dsimp only
  repeat' split
  all_goals exact ⟨rfl, rfl, rfl, rfl, rfl, rfl, rfl⟩

theorem inv_input {w : World} {es : List Nat} (keys : Keys) (hI : InvE w es) :
    InvE (input_events_sender keys w) es := by
  obtain ⟨f1, f2, f3, f4, f5, f6, f7⟩ := input_fields keys w
  exact invE_congr hI f1 f2 f3 f4 f5 f6 f7

theorem inv_init : InvE initWorld [0, 1, 2, 3] := by
  constructor <;> decide

theorem inv_reachable {w : World} (h : Reachable w) : ∃ es, InvE w es := by
  induction h with
  | init => exact ⟨[0, 1, 2, 3], inv_init⟩
  | tick w fires pick hpk hr ih =>
    obtain ⟨es, hI⟩ := ih
    exact inv_tick fires hpk hI
  | input w keys hr ih =>
    obtain ⟨es, hI⟩ := ih
    exact ⟨es, inv_input keys hI⟩

/-! ### Effects of one eat event (general characterization) -/

theorem eatStep_effects (s : World) (ev : EatEvent) (hok : eatOk s ev = true) :
    (eatStep s ev).segments.length = s.segments.length + 1 ∧
    lookupC (eatStep s ev).segments s.nextE =
      some ⟨some (get_tail s.segments s.segments.length ev.eater), none⟩ ∧
    (∀ tseg, lookupC s.segments
        (get_tail s.segments s.segments.length ev.eater) = some tseg →
      lookupC (eatStep s ev).segments
        (get_tail s.segments s.segments.length ev.eater) =
          some ⟨tseg.front, some s.nextE⟩) ∧
    (∀ tpos, lookupC s.positions
        (get_tail s.segments s.segments.length ev.eater) = some tpos →
      lookupC (eatStep s ev).positions s.nextE = some tpos) ∧
    ¬ ev.eaten ∈ (eatStep s ev).foods ∧
    (eatStep s ev).player.snake = s.player.snake ∧
    (ev.eater = s.player.snake → (eatStep s ev).player.food = s.player.food + 1) ∧
    (ev.eater ≠ s.player.snake → (eatStep s ev).player.food = s.player.food) ∧
    (eatStep s ev).nextE = s.nextE + 1 := by
  simp only [eatOk, Bool.and_eq_true, decide_eq_true_eq] at hok
  obtain ⟨⟨⟨⟨⟨hts, htp⟩, hea⟩, hen⟩, hsn⟩, hpn⟩ := hok
  obtain ⟨tseg, h1⟩ := Option.isSome_iff_exists.mp hts
  obtain ⟨tpos, h2⟩ := Option.isSome_iff_exists.mp htp
  have heanone : lookupC s.segments ev.eaten = none :=
    Option.isNone_iff_eq_none.mp hea
  have hsnnone : lookupC s.segments s.nextE = none :=
    Option.isNone_iff_eq_none.mp hsn
  have hpnnone : lookupC s.positions s.nextE = none :=
    Option.isNone_iff_eq_none.mp hpn
  have hteaten : get_tail s.segments s.segments.length ev.eater ≠ ev.eaten := by
    intro h
    rw [h, heanone] at h1
    cases h1
  have htn : get_tail s.segments s.segments.length ev.eater ≠ s.nextE := by
    intro h
    rw [h, hsnnone] at h1
    cases h1
  have heamem : ¬ ev.eaten ∈ s.segments.map Prod.fst := by
    intro h
    have := (lookupC_isSome_iff s.segments ev.eaten).mpr h
    rw [heanone] at this
    cases this
  have hsegs : (eatStep s ev).segments =
      (setC s.segments (get_tail s.segments s.segments.length ev.eater)
        ⟨tseg.front, some s.nextE⟩ ++
        [(s.nextE, (⟨some (get_tail s.segments s.segments.length ev.eater), none⟩
          : SnakeSegment))]).filter
          (fun pr => decide (pr.1 ≠ ev.eaten)) := by
    simp only [eatStep, h1, h2, despawn]
    split <;> rfl
  have hposs : (eatStep s ev).positions =
      (s.positions ++ [(s.nextE, tpos)]).filter (fun pr => decide (pr.1 ≠ ev.eaten)) := by
    simp only [eatStep, h1, h2, despawn]
    split <;> rfl
  have hfoods : (eatStep s ev).foods =
      s.foods.filter (fun a => decide (a ≠ ev.eaten)) := by
    simp only [eatStep, h1, h2, despawn]
    split <;> rfl
  have hnext : (eatStep s ev).nextE = s.nextE + 1 := by
    simp only [eatStep, h1, h2, despawn]
    split <;> rfl
  have hplayer : (eatStep s ev).player =
      (if ev.eater = s.player.snake
       then (⟨s.player.snake, s.player.direction, s.player.food + 1⟩ : Player)
       else s.player) := by
    simp only [eatStep, h1, h2, despawn]
    split <;> rfl
  have hsegfilter : (setC s.segments (get_tail s.segments s.segments.length ev.eater)
        ⟨tseg.front, some s.nextE⟩ ++
        [(s.nextE, (⟨some (get_tail s.segments s.segments.length ev.eater), none⟩ : SnakeSegment))]).filter
          (fun pr => decide (pr.1 ≠ ev.eaten))
      = setC s.segments (get_tail s.segments s.segments.length ev.eater)
          ⟨tseg.front, some s.nextE⟩ ++
          [(s.nextE, ⟨some (get_tail s.segments s.segments.length ev.eater), none⟩)] := by
    apply filter_ne_keys_of_not_mem
    rw [List.map_append, setC_keys]
    intro h
    rcases List.mem_append.mp h with hm | hm
    · exact heamem hm
    · simp only [List.map_cons, List.map_nil, List.mem_singleton] at hm
      exact hen hm
  refine ⟨?_, ?_, ?_, ?_, ?_, ?_, ?_, ?_, hnext⟩
  · rw [hsegs, hsegfilter, List.length_append, setC_length]
    rfl
  · rw [hsegs, lookupC_filter_ne _ (fun h => hen h.symm)]
    rw [lookupC_append_right _ (by rw [lookupC_setC_ne _ _ (fun h => htn h.symm)]; exact hsnnone)]
    simp [lookupC]
  · intro tseg2 h1b
    rw [h1] at h1b
    injection h1b with h1b
    subst h1b
    rw [hsegs, lookupC_filter_ne _ hteaten]
    apply lookupC_append_left
    rw [lookupC_setC_self, h1]
    rfl
  · intro tpos2 h2b
    rw [h2] at h2b
    injection h2b with h2b
    subst h2b
    rw [hposs, lookupC_filter_ne _ (fun h => hen h.symm)]
    rw [lookupC_append_right _ hpnnone]
    simp [lookupC]
  · rw [hfoods]
    intro hmem
    exact (mem_filter_ne hmem).2 rfl
  · rw [hplayer]
    split <;> rfl
  · intro hcond
    rw [hplayer, if_pos hcond]
  · intro hcond
    rw [hplayer, if_neg hcond]

theorem eatStep_snake (s : World) (ev : EatEvent) :
    (eatStep s ev).player.snake = s.player.snake := by
  rw [eatStep]
  cases h1 : lookupC s.segments (get_tail s.segments s.segments.length ev.eater) with
  | none =>
    cases h2 : lookupC s.positions (get_tail s.segments s.segments.length ev.eater) with
    | none => rfl
    | some p => rfl
  | some sg =>
    cases h2 : lookupC s.positions (get_tail s.segments s.segments.length ev.eater) with
    | none => rfl
    | some p =>
      dsimp only
      split <;> rfl

theorem allOk_growth :
    ∀ (evs : List EatEvent) (s : World), allOk s evs = true →
    (eat_events_solver evs s).segments.length = s.segments.length + evs.length ∧
    ((∀ ev ∈ evs, ev.eater = s.player.snake) →
      (eat_events_solver evs s).player.food = s.player.food + evs.length) := by
  intro evs
  induction evs with
  | nil =>
    intro s _
    exact ⟨rfl, fun _ => rfl⟩
  | cons ev rest ih =>
    intro s hok
    rw [allOk, Bool.and_eq_true] at hok
    obtain ⟨hok1, hok2⟩ := hok
    have heff := eatStep_effects s ev hok1
    have hone : eat_events_solver (ev :: rest) s
        = eat_events_solver rest (eatStep s ev) := rfl
    obtain ⟨ihlen, ihfood⟩ := ih (eatStep s ev) hok2
    constructor
    · rw [hone, ihlen, heff.1]
      simp only [List.length_cons]
      omega
    · intro hall
      have hev : ev.eater = s.player.snake := hall ev (List.mem_cons_self ev rest)
      rw [hone, ihfood, heff.2.2.2.2.2.2.1 hev]
      · simp only [List.length_cons]
        omega
      · intro ev2 hev2
        rw [eatStep_snake]
        exact hall ev2 (List.mem_cons_of_mem ev hev2)

/-! ### Tick-level and input-level helper lemmas -/

theorem pickLast_ok : PickOk pickLast := by
  intro l p h
  rw [pickLast] at h
  induction l with
  | nil => cases h
  | cons a rest ih =>
    cases rest with
    | nil =>
      simp only [List.getLast?_singleton] at h
      injection h with h
      exact h ▸ List.mem_cons_self a []
    | cons b r =>
      rw [List.getLast?_cons_cons] at h
      exact List.mem_cons_of_mem a (ih h)

theorem pickNone_ok : PickOk pickNone := by
  intro l p h
  cases h

theorem food_spawner_some {pick : List Position → Option Position} (w : World)
    {p : Position} (h : pick (freeCells w) = some p) :
    food_spawner true pick w = spawn_food w p := by
  simp only [food_spawner, if_true, h]

theorem food_spawner_none {pick : List Position → Option Position} (w : World)
    (h : pick (freeCells w) = none) : food_spawner true pick w = w := by
  simp only [food_spawner, if_true, h]

theorem tick_lost (fires : Bool) (pick : List Position → Option Position)
    (w : World) (hg : w.gamestate = GameState.Lost) : tick fires pick w = w := by
  rw [tick, if_neg]
  rw [hg]
  intro h
  cases h

theorem tick_bumps_lost (fires : Bool) (pick : List Position → Option Position)
    (w : World) (hg : w.gamestate = GameState.Playing)
    (hb : tickBumps fires pick w ≠ []) :
    (tick fires pick w).gamestate = GameState.Lost := by
  obtain ⟨b, rest, hbr⟩ : ∃ b rest, tickBumps fires pick w = b :: rest := by
    cases h : tickBumps fires pick w with
    | nil => exact absurd h hb
    | cons b rest => exact ⟨b, rest, rfl⟩
  rw [tick, if_pos hg]
  show (bump_events_solver (tickBumps fires pick w)
    (eat_events_solver (tickEats fires pick w)
      (snake_movement (segment_movement (food_spawner fires pick w))))).gamestate
    = GameState.Lost
  rw [hbr]
  rfl

theorem bump_solver_segments (bs : List BumpEvent) (v : World) :
    (bump_events_solver bs v).segments = v.segments := by
  cases bs <;> rfl

theorem tick_segments_no_eats (fires : Bool)
    (pick : List Position → Option Position) (w : World)
    (he : tickEats fires pick w = []) :
    (tick fires pick w).segments = w.segments := by
  rw [tick]
  by_cases hg : w.gamestate = GameState.Playing
  · rw [if_pos hg]
    show (bump_events_solver (tickBumps fires pick w)
      (eat_events_solver (tickEats fires pick w)
        (snake_movement (segment_movement (food_spawner fires pick w))))).segments
      = w.segments
    rw [he, bump_solver_segments]
    rw [show eat_events_solver []
        (snake_movement (segment_movement (food_spawner fires pick w)))
      = snake_movement (segment_movement (food_spawner fires pick w)) from rfl]
    rw [(snake_movement_fields _).1]
    rw [show (segment_movement (food_spawner fires pick w)).segments
      = (food_spawner fires pick w).segments from rfl]
    exact (food_spawner_fields fires pick w).1
  · rw [if_neg hg]

theorem input_gamestate (keys : Keys) (w : World) :
    (input_events_sender keys w).gamestate = w.gamestate ∨
    (w.gamestate = GameState.Playing ∧
      (input_events_sender keys w).gamestate = GameState.Paused) ∨
    (w.gamestate = GameState.Paused ∧
      (input_events_sender keys w).gamestate = GameState.Playing) := by
  unfold input_events_sender
  dsimp only
  by_cases hsp : keys.space
  · rw [if_pos hsp]
    by_cases hpa : w.gamestate = GameState.Paused
    · rw [if_pos hpa]
      right
      right
      refine ⟨hpa, ?_⟩
      repeat' split
      all_goals rfl
    · rw [if_neg hpa]
      by_cases hpl : w.gamestate = GameState.Playing
      · rw [if_pos hpl]
        right
        left
        refine ⟨hpl, ?_⟩
        repeat' split
        all_goals rfl
      · rw [if_neg hpl]
        left
        repeat' split
        all_goals rfl
  · rw [if_neg hsp]
    left
    repeat' split
    all_goals rfl

theorem get0_of_headq {l : List Nat} {a : Nat} (h : l.head? = some a)
    (h0 : 0 < l.length) : l.get ⟨0, h0⟩ = a := by
  cases l with
  | nil => simp at h
  | cons b t =>
    rw [List.head?_cons] at h
    injection h

/-! ### Counting the ends of the chain table -/

theorem filter_front_some (x : Nat) (l : List Nat) :
    (chainLinks (some x) l).filter (fun pr => decide (pr.2.front = none)) = [] := by
  induction l generalizing x with
  | nil => rfl
  | cons e rest ih =>
    rw [chainLinks, List.filter_cons_of_neg (by simp)]
    exact ih e

theorem front_none_count (e : Nat) (rest : List Nat) :
    ((chainLinks none (e :: rest)).filter
      (fun pr => decide (pr.2.front = none))).length = 1 := by
  rw [chainLinks, List.filter_cons_of_pos (by simp), filter_front_some]
  rfl

theorem back_none_count :
    ∀ (l : List Nat) (f : Option Nat), l ≠ [] →
    ((chainLinks f l).filter (fun pr => decide (pr.2.back = none))).length = 1 := by
  intro l
  induction l with
  | nil =>
    intro f h
    exact absurd rfl h
  | cons e rest ih =>
    intro f _
    cases rest with
    | nil =>
      rw [chainLinks]
      rw [List.filter_cons_of_pos (by simp)]
      rfl
    | cons b rest2 =>
      rw [chainLinks, List.filter_cons_of_neg (by simp)]
      exact ih (some e) (List.cons_ne_nil b rest2)

theorem lookupC_chainLinks_elim :
    ∀ (l : List Nat) (f : Option Nat) (a : Nat) (s : SnakeSegment),
    lookupC (chainLinks f l) a = some s →
    ∃ i : Nat, l[i]? = some a ∧ s.front = prevO f l i ∧ s.back = l[i + 1]? := by
  intro l
  induction l with
  | nil =>
    intro f a s h
    cases h
  | cons e rest ih =>
    intro f a s h
    rw [chainLinks] at h
    by_cases hea : e = a
    · subst hea
      rw [lookupC, if_pos rfl] at h
      injection h with h
      refine ⟨0, by simp, ?_, ?_⟩
      · rw [← h]
        rfl
      · rw [← h]
        show rest.head? = (e :: rest)[0 + 1]?
        rw [List.getElem?_cons_succ, ← List.head?_eq_getElem?]
    · rw [lookupC, if_neg hea] at h
      obtain ⟨i, hia, hf, hb⟩ := ih (some e) a s h
      refine ⟨i + 1, by simpa using hia, ?_, by simpa using hb⟩
      rw [hf]
      show prevO (some e) rest i = (e :: rest)[i]?
      cases i with
      | zero => simp [prevO]
      | succ k => simp [prevO]

theorem chain_back_front_iff {segs : List (Nat × SnakeSegment)} {es : List Nat}
    (hnd : es.Nodup) (hseg : segs = chainLinks none es) :
    ∀ a b sa sb, lookupC segs a = some sa → lookupC segs b = some sb →
      (sa.back = some b ↔ sb.front = some a) := by
  subst hseg
  intro a b sa sb ha hb
  obtain ⟨i, hia, hfa, hba⟩ := lookupC_chainLinks_elim es none a sa ha
  obtain ⟨j, hjb, hfb, hbb⟩ := lookupC_chainLinks_elim es none b sb hb
  have hilt : i < es.length := by
    by_contra hge
    rw [List.getElem?_eq_none (by omega)] at hia
    cases hia
  have hjlt : j < es.length := by
    by_contra hge
    rw [List.getElem?_eq_none (by omega)] at hjb
    cases hjb
  constructor
  · intro hab
    rw [hba] at hab
    have hj : i + 1 = j := by
      apply List.getElem?_inj ?_ hnd (by rw [hab, hjb])
      by_contra hge
      rw [List.getElem?_eq_none (by omega)] at hab
      cases hab
    rw [hfb, ← hj]
    show prevO none es (i + 1) = some a
    rw [show prevO none es (i + 1) = es[i]? from rfl]
    exact hia
  · intro hab
    rw [hfb] at hab
    cases j with
    | zero => cases hab
    | succ k =>
      have hka : es[k]? = some a := by
        rw [show prevO none es (k + 1) = es[k]? from rfl] at hab
        exact hab
      have hik : k = i := List.getElem?_inj (by omega) hnd (by rw [hka, hia])
      rw [hba, ← hik]
      exact hjb

/-! ### The movement phase seen from the neck -/

theorem movement_phase_facts {w : World} {es : List Nat} (fires : Bool)
    {pick : List Position → Option Position}
    (hpk : PickOk pick) (hI : InvE w es) (h2 : 1 < es.length) :
    ∃ p0 d,
      lookupC (snake_movement (segment_movement (food_spawner fires pick w))).positions
        (es.get ⟨1, h2⟩) = some p0 ∧
      lookupC (snake_movement (segment_movement (food_spawner fires pick w))).positions
        w.player.snake = some (step p0 d) ∧
      InvE (snake_movement (segment_movement (food_spawner fires pick w))) es ∧
      (snake_movement (segment_movement (food_spawner fires pick w))).player.snake
        = w.player.snake := by
  have hI1 : InvE (food_spawner fires pick w) es := inv_food_spawner fires hpk hI
  have hI2 : InvE (segment_movement (food_spawner fires pick w)) es :=
    inv_segment_movement hI1
  have hI3 : InvE (snake_movement (segment_movement (food_spawner fires pick w))) es :=
    inv_snake_movement hI2
  obtain ⟨e0, rest, hes⟩ : ∃ e0 rest, es = e0 :: rest := by
    cases es with
    | nil => exact absurd rfl hI.esNe
    | cons a l => exact ⟨a, l, rfl⟩
  have hw1p : (food_spawner fires pick w).player = w.player :=
    (food_spawner_fields fires pick w).2.2.2.1
  have hw1h : (food_spawner fires pick w).heads = w.heads :=
    (food_spawner_fields fires pick w).2.2.1
  have he0 : e0 = w.player.snake := by
    have h := hI1.headFst
    rw [hes, List.head?_cons, hw1p] at h
    injection h
  subst hes
  have hnd2 := List.nodup_cons.mp hI.esNd
  obtain ⟨hseg2, hkeys2, hout2, hsh2⟩ := segment_movement_spec
    (food_spawner fires pick w) hI1.esNe hI1.esNd hI1.segsEq hI1.segsPos
  obtain ⟨p0, hp0⟩ := Option.isSome_iff_exists.mp
    (hI1.segsPos e0 (List.mem_cons_self e0 rest))
  have hneck2 : lookupC (segment_movement (food_spawner fires pick w)).positions
      ((e0 :: rest).get ⟨1, h2⟩) = some p0 := by
    have := hsh2 0 h2
    rw [this]
    show lookupC (food_spawner fires pick w).positions e0 = some p0
    exact hp0
  have hhead2 : lookupC (segment_movement (food_spawner fires pick w)).positions e0
      = some p0 := by
    rw [hout2 e0 (by simpa using hnd2.1)]
    exact hp0
  have hmem3 : (segment_movement (food_spawner fires pick w)).player.snake
      ∈ (segment_movement (food_spawner fires pick w)).heads := by
    show (food_spawner fires pick w).player.snake ∈ (food_spawner fires pick w).heads
    rw [hw1p, hw1h, hI.headsEq]
    exact List.mem_singleton.mpr rfl
  have hp2 : lookupC (segment_movement (food_spawner fires pick w)).positions
      (segment_movement (food_spawner fires pick w)).player.snake = some p0 := by
    show lookupC (segment_movement (food_spawner fires pick w)).positions
      (food_spawner fires pick w).player.snake = some p0
    rw [hw1p, ← he0]
    exact hhead2
  have hpos3 := snake_movement_positions
    (segment_movement (food_spawner fires pick w)) hmem3 hp2
  have hsnake3 : (snake_movement (segment_movement (food_spawner fires pick w))).player.snake
      = w.player.snake := by
    rw [(snake_movement_fields _).2.2.2.2.2.2.2.1]
    show (food_spawner fires pick w).player.snake = w.player.snake
    rw [hw1p]
  refine ⟨p0,
    (if (segment_movement (food_spawner fires pick w)).lastInput
        ≠ (segment_movement (food_spawner fires pick w)).player.direction.opposite
     then (segment_movement (food_spawner fires pick w)).lastInput
     else (segment_movement (food_spawner fires pick w)).player.direction),
    ?_, ?_, hI3, hsnake3⟩
  · rw [hpos3]
    apply Eq.trans (lookupC_setC_ne _ _ ?_) hneck2
    show (e0 :: rest).get ⟨1, h2⟩ ≠ (segment_movement (food_spawner fires pick w)).player.snake
    show rest.get ⟨0, by simpa using h2⟩ ≠ (segment_movement (food_spawner fires pick w)).player.snake
    intro hcontra
    apply hnd2.1
    have hre : rest.get ⟨0, by simpa using h2⟩ = e0 := by
      rw [hcontra]
      show (food_spawner fires pick w).player.snake = e0
      rw [hw1p, he0]
    rw [← hre]
    exact List.get_mem rest 0 _
  · rw [hpos3]
    have hK : (segment_movement (food_spawner fires pick w)).player.snake
        = w.player.snake := by
      show (food_spawner fires pick w).player.snake = w.player.snake
      rw [hw1p]
    rw [hK, lookupC_setC_self]
    rw [hK] at hp2
    rw [hp2]
    rfl

/-! ### Invariant instances for the concrete worlds -/

theorem invCw1 : InvE cw1 [0, 1, 2, 3] := by
  constructor <;> decide

theorem invCwB : InvE cwB [0, 1, 2, 3, 4] := by
  constructor <;> decide

/-! ## The claims -/

/-- C1: one movement tick assigns to each non-head segment exactly the
position the segment in front of it held before this tick's update
(computed from the pre-update positions), changes only position values
(the segment table and the position keys are untouched), leaves the
segment table unchanged on a tick with no Eat event, and drives the
concrete chain `[(5,5),(4,5),(3,5),(2,5)]` moving right to
`[(6,5),(5,5),(4,5),(3,5)]`. -/
theorem chain_shift_correct :
    (∀ (w : World) (es : List Nat), InvE w es →
      (segment_movement w).segments = w.segments ∧
      (segment_movement w).positions.map Prod.fst = w.positions.map Prod.fst ∧
      (∀ (i : Nat) (h : i + 1 < es.length),
        lookupC (segment_movement w).positions (es.get ⟨i + 1, h⟩) =
          lookupC w.positions (es.get ⟨i, Nat.lt_of_succ_lt h⟩)) ∧
      (∀ e, ¬ e ∈ es.tail →
        lookupC (segment_movement w).positions e = lookupC w.positions e)) ∧
    (∀ (fires : Bool) (pick : List Position → Option Position) (w : World),
      tickEats fires pick w = [] → (tick fires pick w).segments = w.segments) ∧
    ((tick false pickNone cw1).positions =
      [(0, ⟨6, 5⟩), (1, ⟨5, 5⟩), (2, ⟨4, 5⟩), (3, ⟨3, 5⟩)] ∧
     (tick false pickNone cw1).segments = cw1.segments) := by
  refine ⟨?_, tick_segments_no_eats, by decide, by decide⟩
  intro w es hI
  obtain ⟨h1, h2, h3, h4⟩ :=
    segment_movement_spec w hI.esNe hI.esNd hI.segsEq hI.segsPos
  exact ⟨h1, h2, h4, h3⟩

/-- C1 witness: the shift instantiated on the concrete four-segment chain. -/
theorem chain_shift_correct_witness :
    (segment_movement cw1).segments = cw1.segments ∧
    lookupC (segment_movement cw1).positions ([0, 1, 2, 3].get ⟨1, by decide⟩) =
      lookupC cw1.positions ([0, 1, 2, 3].get ⟨0, by decide⟩) :=
  ⟨(chain_shift_correct.1 cw1 [0, 1, 2, 3] invCw1).1,
   (chain_shift_correct.1 cw1 [0, 1, 2, 3] invCw1).2.2.1 0 (by decide)⟩

/-- C2: each consumed Eat event appends exactly one new segment at the
eater's current (post-shift) tail cell — the new segment becomes the tail
with `back = none` and `front` = the old tail, whose `back` now points to
it — destroys the eaten food, and bumps the player's score by one; `N`
resolved events grow the chain by exactly `N` and (when the player is the
eater) the score by `N`; the head-on-food scenario shows it concretely. -/
theorem eat_growth_correct :
    (∀ (s : World) (ev : EatEvent), eatOk s ev = true →
      (eatStep s ev).segments.length = s.segments.length + 1 ∧
      lookupC (eatStep s ev).segments s.nextE =
        some ⟨some (get_tail s.segments s.segments.length ev.eater), none⟩ ∧
      (∀ tseg, lookupC s.segments
          (get_tail s.segments s.segments.length ev.eater) = some tseg →
        lookupC (eatStep s ev).segments
          (get_tail s.segments s.segments.length ev.eater) =
            some ⟨tseg.front, some s.nextE⟩) ∧
      (∀ tpos, lookupC s.positions
          (get_tail s.segments s.segments.length ev.eater) = some tpos →
        lookupC (eatStep s ev).positions s.nextE = some tpos) ∧
      ¬ ev.eaten ∈ (eatStep s ev).foods ∧
      (ev.eater = s.player.snake →
        (eatStep s ev).player.food = s.player.food + 1)) ∧
    (∀ (evs : List EatEvent) (s : World), allOk s evs = true →
      (eat_events_solver evs s).segments.length = s.segments.length + evs.length ∧
      ((∀ ev ∈ evs, ev.eater = s.player.snake) →
        (eat_events_solver evs s).player.food = s.player.food + evs.length)) ∧
    (tickEats false pickNone cwEat = [⟨0, 4⟩] ∧
     (tick false pickNone cwEat).foods = [] ∧
     (tick false pickNone cwEat).player.food = 1 ∧
     (tick false pickNone cwEat).segments.length = cwEat.segments.length + 1 ∧
     lookupC (tick false pickNone cwEat).positions 5 = some ⟨0, 1⟩ ∧
     lookupC (tick false pickNone cwEat).positions 3 = some ⟨0, 1⟩ ∧
     lookupC (tick false pickNone cwEat).segments 5 = some ⟨some 3, none⟩ ∧
     lookupC (tick false pickNone cwEat).segments 3 = some ⟨some 2, some 5⟩) := by
  refine ⟨?_, allOk_growth, by decide⟩
  intro s ev hok
  obtain ⟨e1, e2, e3, e4, e5, _, e7, _, _⟩ := eatStep_effects s ev hok
  exact ⟨e1, e2, e3, e4, e5, e7⟩

/-- C2 witness: one resolved Eat event on the concrete world grows the
chain by one and the score by one. -/
theorem eat_growth_correct_witness :
    (eat_events_solver [⟨0, 4⟩] cwEat).segments.length
      = cwEat.segments.length + 1 ∧
    (eat_events_solver [⟨0, 4⟩] cwEat).player.food = cwEat.player.food + 1 :=
  ⟨(eat_growth_correct.2.1 [⟨0, 4⟩] cwEat (by decide)).1,
   (eat_growth_correct.2.1 [⟨0, 4⟩] cwEat (by decide)).2 (by decide)⟩

/-- C3: a head sharing its post-movement cell with a live body segment
yields a Bump event; a tick with a Bump moves the phase from `Playing` to
`Lost`; `Lost` is terminal — a tick from `Lost` changes nothing at all and
the input system neither leaves `Lost` nor touches chain, food or score. -/
theorem bump_lost_terminal :
    (∀ (w : World) (h b : Nat) (ph : Position),
      h ∈ w.heads → lookupC w.positions h = some ph →
      b ∈ w.snakes → ¬ b ∈ w.heads → lookupC w.positions b = some ph →
      (⟨h, b⟩ : BumpEvent) ∈ (collision_solver w).2) ∧
    (∀ (fires : Bool) (pick : List Position → Option Position) (w : World),
      w.gamestate = GameState.Playing → tickBumps fires pick w ≠ [] →
      (tick fires pick w).gamestate = GameState.Lost) ∧
    (∀ (fires : Bool) (pick : List Position → Option Position) (w : World),
      w.gamestate = GameState.Lost → tick fires pick w = w) ∧
    (∀ (keys : Keys) (w : World), w.gamestate = GameState.Lost →
      (input_events_sender keys w).gamestate = GameState.Lost ∧
      (input_events_sender keys w).segments = w.segments ∧
      (input_events_sender keys w).positions = w.positions ∧
      (input_events_sender keys w).foods = w.foods ∧
      (input_events_sender keys w).player = w.player) := by
  refine ⟨?_, tick_bumps_lost, tick_lost, ?_⟩
  · intro w h b ph hh hph hb hbh hpb
    exact bumps_intro hh hph hb hbh hpb
  · intro keys w hg
    obtain ⟨f1, f2, f3, f4, f5, f6, f7⟩ := input_fields keys w
    refine ⟨?_, f3, f2, f6, f7⟩
    rcases input_gamestate keys w with h | ⟨h1, h2⟩ | ⟨h1, h2⟩
    · rw [h, hg]
    · rw [hg] at h1
      cases h1
    · rw [hg] at h1
      cases h1

/-- C3 witness: the folded five-segment chain bumps and the game is lost. -/
theorem bump_lost_terminal_witness :
    (tick false pickNone cwB).gamestate = GameState.Lost :=
  bump_lost_terminal.2.1 false pickNone cwB rfl (by decide)

/-- C4: the buffered direction is adopted exactly when it is not the
opposite of the committed one; a reversal is silently dropped; with
committed `Up` and buffered `Down` the direction stays `Up`. -/
theorem reversal_guard :
    (∀ w : World, w.lastInput = w.player.direction.opposite →
      (snake_movement w).player.direction = w.player.direction) ∧
    (∀ w : World, w.lastInput ≠ w.player.direction.opposite →
      (snake_movement w).player.direction = w.lastInput) ∧
    (∀ w : World, w.player.direction = Direction.up →
      w.lastInput = Direction.down →
      (snake_movement w).player.direction = Direction.up) := by
  refine ⟨?_, ?_, ?_⟩
  · intro w h
    rw [snake_movement_dir, if_neg (by simp [h])]
  · intro w h
    rw [snake_movement_dir, if_pos h]
  · intro w h1 h2
    rw [snake_movement_dir, if_neg (by rw [h1, h2]; simp [Direction.opposite]), h1]

/-- C4 witness: the buffered-`Down` reversal is dropped on `cwRev`. -/
theorem reversal_guard_witness :
    (snake_movement cwRev).player.direction = Direction.up :=
  reversal_guard.2.2 cwRev rfl rfl

/-- C5: the head wraps toroidally on both axes, a stepped position is
always inside the arena, and in every reachable state every stored
position is in bounds. -/
theorem toroidal_wrap_invariant :
    (∀ y : Int, 0 ≤ y → y < ARENA_HEIGHT →
      step ⟨ARENA_WIDTH - 1, y⟩ Direction.right = ⟨0, y⟩ ∧
      step ⟨0, y⟩ Direction.left = ⟨ARENA_WIDTH - 1, y⟩) ∧
    (∀ x : Int, 0 ≤ x → x < ARENA_WIDTH →
      step ⟨x, ARENA_HEIGHT - 1⟩ Direction.up = ⟨x, 0⟩ ∧
      step ⟨x, 0⟩ Direction.down = ⟨x, ARENA_HEIGHT - 1⟩) ∧
    (∀ (p : Position) (d : Direction), inBounds (step p d)) ∧
    (∀ w : World, Reachable w → ∀ pr ∈ w.positions, inBounds pr.2) := by
  refine ⟨?_, ?_, step_inBounds, ?_⟩
  · intro y h0 h1
    rw [ARENA_HEIGHT] at h1
    constructor <;>
      · simp only [step, ARENA_WIDTH, ARENA_HEIGHT, Position.mk.injEq]
        split_ifs <;> omega
  · intro x h0 h1
    rw [ARENA_WIDTH] at h1
    constructor <;>
      · simp only [step, ARENA_WIDTH, ARENA_HEIGHT, Position.mk.injEq]
        split_ifs <;> omega
  · intro w hr pr hpr
    obtain ⟨es, hI⟩ := inv_reachable hr
    exact hI.posBounds pr hpr

/-- C5 witness: wrap at the right edge and back on row 7. -/
theorem toroidal_wrap_invariant_witness :
    step ⟨ARENA_WIDTH - 1, 7⟩ Direction.right = ⟨0, 7⟩ ∧
    step ⟨0, 7⟩ Direction.left = ⟨ARENA_WIDTH - 1, 7⟩ :=
  toroidal_wrap_invariant.1 7 (by decide) (by decide)

/-- C6: in every reachable state the segment table is exactly the chain
table of a duplicate-free entity list: one `front = none` entry, one
`back = none` entry, `back`/`front` links mutually inverse, and the
snapshot obtained by walking `back` links from the player's head is that
list, whose length equals the segment count. -/
theorem chain_linkage_invariant :
    ∀ w : World, Reachable w → ∃ es : List Nat,
      w.segments = chainLinks none es ∧ es ≠ [] ∧ es.Nodup ∧
      es.length = w.segments.length ∧
      (w.segments.filter (fun pr => decide (pr.2.front = none))).length = 1 ∧
      (w.segments.filter (fun pr => decide (pr.2.back = none))).length = 1 ∧
      (∀ a b sa sb, lookupC w.segments a = some sa →
        lookupC w.segments b = some sb →
        (sa.back = some b ↔ sb.front = some a)) ∧
      chainWalk w.segments w.segments.length (some w.player.snake) = es := by
  intro w hr
  obtain ⟨es, hI⟩ := inv_reachable hr
  obtain ⟨e0, rest, hes⟩ : ∃ e0 rest, es = e0 :: rest := by
    cases es with
    | nil => exact absurd rfl hI.esNe
    | cons a l => exact ⟨a, l, rfl⟩
  refine ⟨es, hI.segsEq, hI.esNe, hI.esNd, ?_, ?_, ?_, ?_, ?_⟩
  · rw [hI.segsEq, chainLinks_length]
  · rw [hI.segsEq, hes]
    exact front_none_count e0 rest
  · rw [hI.segsEq]
    exact back_none_count es none hI.esNe
  · exact chain_back_front_iff hI.esNd hI.segsEq
  · have hcl : ChainLinked w.segments es := by
      rw [hI.segsEq]
      exact chainLinked_chainLinks hI.esNd none
    have hlen : es.length ≤ w.segments.length := by
      rw [hI.segsEq, chainLinks_length]
    have hwalk := chainWalk_chain w.segments es w.segments.length hcl hlen
    rw [hI.headFst] at hwalk
    exact hwalk

/-- C6 witness: the chain structure of the startup state. -/
theorem chain_linkage_invariant_witness :
    ∃ es : List Nat,
      initWorld.segments = chainLinks none es ∧ es ≠ [] ∧ es.Nodup ∧
      es.length = initWorld.segments.length ∧
      (initWorld.segments.filter (fun pr => decide (pr.2.front = none))).length = 1 ∧
      (initWorld.segments.filter (fun pr => decide (pr.2.back = none))).length = 1 ∧
      (∀ a b sa sb, lookupC initWorld.segments a = some sa →
        lookupC initWorld.segments b = some sb →
        (sa.back = some b ↔ sb.front = some a)) ∧
      chainWalk initWorld.segments initWorld.segments.length
        (some initWorld.player.snake) = es :=
  chain_linkage_invariant initWorld Reachable.init

/-- C7 counterexample: the spawner's free set is not "all grid cells minus
segment-occupied cells": in the reachable state holding a food at
`(14,14)`, that cell is in the spec-worded set but not in the implemented
one (the implementation also subtracts food cells). -/
theorem food_free_set_cex :
    Reachable w1food ∧ (⟨14, 14⟩ : Position) ∈ freeCells_spec w1food ∧
    ¬ (⟨14, 14⟩ : Position) ∈ freeCells w1food :=
  ⟨Reachable.tick initWorld true pickLast pickLast_ok Reachable.init,
   by decide, by decide⟩

/-- C7 (amended): the spawner's free set subtracts the cells of every
positioned entity (segments and food alike); on an empty free set or an
abstaining RNG it silently does nothing, and a spawned food never lands on
any occupied cell. -/
theorem food_spawner_free_cells :
    ∀ (w : World) (pick : List Position → Option Position), PickOk pick →
      (freeCells w = [] → food_spawner true pick w = w) ∧
      (∀ p, pick (freeCells w) = some p →
        food_spawner true pick w = spawn_food w p ∧ ¬ p ∈ occupiedCells w) ∧
      (pick (freeCells w) = none → food_spawner true pick w = w) := by
  intro w pick hpk
  refine ⟨?_, ?_, ?_⟩
  · intro hfe
    cases hp : pick (freeCells w) with
    | none => exact food_spawner_none w hp
    | some p =>
      have hmem := hpk _ p hp
      rw [hfe] at hmem
      cases hmem
  · intro p hp
    exact ⟨food_spawner_some w hp, freeCells_not_occupied (hpk _ p hp)⟩
  · intro hp
    exact food_spawner_none w hp

/-- C7 witness: on the concrete world the spawner places the picked free
cell `(14,14)`, which is unoccupied. -/
theorem food_spawner_free_cells_witness :
    food_spawner true pickLast cwEat = spawn_food cwEat ⟨14, 14⟩ ∧
    ¬ (⟨14, 14⟩ : Position) ∈ occupiedCells cwEat :=
  (food_spawner_free_cells cwEat pickLast pickLast_ok).2.1 ⟨14, 14⟩ (by decide)

/-- C8 counterexample: two timer firings with nothing eaten leave two live
food entities at once in a reachable state — there is no
`max_concurrent_food = 1` policy in the code. -/
theorem food_single_cex :
    Reachable w2food ∧ w2food.foods.length = 2 :=
  ⟨Reachable.tick w1food true pickLast pickLast_ok
    (Reachable.tick initWorld true pickLast pickLast_ok Reachable.init),
   by decide⟩

/-- C8 (amended): every timer firing on which the RNG picks a free cell
spawns one more food, regardless of how many foods are already pending;
concurrent foods accumulate. -/
theorem food_accumulates :
    ∀ (w : World) (pick : List Position → Option Position) (p : Position),
      pick (freeCells w) = some p →
      (food_spawner true pick w).foods.length = w.foods.length + 1 := by
  intro w pick p hp
  rw [food_spawner_some w hp]
  show (w.foods ++ [w.nextE]).length = w.foods.length + 1
  simp

/-- C8 witness: a firing with a food already pending still spawns. -/
theorem food_accumulates_witness :
    (food_spawner true pickLast w1food).foods.length = w1food.foods.length + 1 :=
  food_accumulates w1food pickLast ⟨14, 13⟩ (by decide)

/-- C9: for every chain of length at least two, a movement tick never
emits a Bump event whose obstacle is the segment immediately behind the
head: that segment ends the tick on the head's previous cell, which the
stepped head never occupies. -/
theorem no_neck_bump :
    ∀ (w : World) (es : List Nat) (fires : Bool)
      (pick : List Position → Option Position),
    PickOk pick → InvE w es → ∀ (h2 : 1 < es.length),
    ∀ b, b ∈ tickBumps fires pick w → b.wall ≠ es.get ⟨1, h2⟩ := by
  intro w es fires pick hpk hI h2 b hb hwall
  obtain ⟨p0, d, hneck, hhead, hI3, hsnake3⟩ := movement_phase_facts fires hpk hI h2
  have hb2 : b ∈ (collision_solver (snake_movement (segment_movement
      (food_spawner fires pick w)))).2 := hb
  obtain ⟨hp, hhp, bp, hbp, heq2, hbe⟩ := bumps_elim hb2
  obtain ⟨ph, hph, hlist⟩ := headsWithPos_under_inv hI3
  rw [hlist, List.mem_singleton] at hhp
  subst hhp
  obtain ⟨hbs, hbh, hbl⟩ := bodyWithPos_elim hbp
  have hwall2 : bp.1 = es.get ⟨1, h2⟩ := by
    rw [hbe] at hwall
    exact hwall
  rw [hwall2] at hbl
  have hbp2 : bp.2 = p0 := by
    have h := hbl.symm.trans hneck
    injection h
  have hph2 : ph = step p0 d := by
    rw [hsnake3] at hph
    have h := hph.symm.trans hhead
    injection h
  have : step p0 d = p0 := by
    rw [← hph2, ← hbp2]
    exact heq2
  exact step_ne p0 d this

/-- C9 witness: the bump of the folded chain hits the fifth segment, not
the one right behind the head. -/
theorem no_neck_bump_witness :
    (⟨0, 4⟩ : BumpEvent).wall ≠ [0, 1, 2, 3, 4].get ⟨1, by decide⟩ :=
  no_neck_bump cwB [0, 1, 2, 3, 4] false pickNone pickNone_ok invCwB
    (by decide) ⟨0, 4⟩ (by decide)

/-- C10: the spawner's occupancy snapshot covers every positioned entity
(food included), so a fresh food never lands on any occupied cell, and in
every reachable state no two live foods share a cell. -/
theorem food_cells_distinct :
    (∀ (w : World) (pick : List Position → Option Position), PickOk pick →
      ∀ p, pick (freeCells w) = some p → ∀ pr, pr ∈ w.positions → pr.2 ≠ p) ∧
    (∀ w : World, Reachable w → ∀ a, a ∈ w.foods → ∀ b, b ∈ w.foods →
      a ≠ b → lookupC w.positions a ≠ lookupC w.positions b) := by
  constructor
  · intro w pick hpk p hp pr hpr hcontra
    apply freeCells_not_occupied (hpk _ p hp)
    rw [← hcontra]
    exact List.mem_map.mpr ⟨pr, hpr, rfl⟩
  · intro w hr a ha b hb hab
    obtain ⟨es, hI⟩ := inv_reachable hr
    have hsym : Symmetric
        (fun a b => lookupC w.positions a ≠ lookupC w.positions b) :=
      fun x y h => Ne.symm h
    exact List.Pairwise.forall hsym hI.foodsCells ha hb hab

/-- C10 witness: the fresh food cell differs from the existing food's
cell on the concrete world. -/
theorem food_cells_distinct_witness :
    ((4, (⟨2, 2⟩ : Position)) : Nat × Position).2 ≠ ⟨14, 14⟩ :=
  food_cells_distinct.1 cwEat pickLast pickLast_ok ⟨14, 14⟩ (by decide)
    (4, ⟨2, 2⟩) (by decide)

end IdleSnake
